import Mathlib

/-!
A verification development for a Rust ray tracer (BVH-accelerated sphere
scenes with Lambertian / Metal / Dielectric materials and a recursive
radiance estimator).

Modelling conventions:

* `f64` values flowing through the numerically delicate paths (the AABB slab
  test and the quadratic-root selection of sphere intersection) are modelled
  by `FP`: an exact rational, `+inf`, `-inf`, or `nan`, with the IEEE-754
  behaviour of the operations the code actually performs (division by zero
  producing infinities, `0 * inf = nan`, comparisons with `nan` false, and
  the NaN-ignoring `f64::max` / `f64::min` of Rust).  The model has no
  negative zero and no rounding: arithmetic on finite values is exact
  rational arithmetic.
* `f64.sqrt` is transcendental, so every function that calls it takes the
  square-root function as an explicit parameter `sq : ℚ → ℚ`; theorems that
  need it assume its defining properties at exactly the arguments where the
  code applies it.
* The trigonometric texture-coordinate map `get_sphere_uv` (acos/atan2) and
  the checker texture's `sin` are likewise taken as parameters.
-/

namespace RT

/-- A model of an `f64` as used by this program: an exact rational, an
infinity, or NaN.  There is no negative zero and finite arithmetic is exact. -/
inductive FP where
  | fin : ℚ → FP
  | pinf : FP
  | ninf : FP
  | nan : FP
deriving DecidableEq, Repr

namespace FP

/-- IEEE `<` : any comparison involving NaN is false. -/
def lt : FP → FP → Bool
  | fin a, fin b => a < b
  | fin _, pinf => true
  | ninf, fin _ => true
  | ninf, pinf => true
  | _, _ => false

/-- IEEE `<=` : any comparison involving NaN is false. -/
def le : FP → FP → Bool
  | fin a, fin b => a ≤ b
  | fin _, pinf => true
  | ninf, fin _ => true
  | ninf, pinf => true
  | pinf, pinf => true
  | ninf, ninf => true
  | _, _ => false

/-- `x - q` for a finite rational `q` (the only subtraction the slab test
performs: a box coordinate minus the finite ray-origin component). -/
def subQ : FP → ℚ → FP
  | fin a, q => fin (a - q)
  | pinf, _ => pinf
  | ninf, _ => ninf
  | nan, _ => nan

/-- IEEE multiplication on the model, including `0 * inf = nan`. -/
def mul : FP → FP → FP
  | fin a, fin b => fin (a * b)
  | fin a, pinf => if a > 0 then pinf else if a < 0 then ninf else nan
  | fin a, ninf => if a > 0 then ninf else if a < 0 then pinf else nan
  | pinf, fin b => if b > 0 then pinf else if b < 0 then ninf else nan
  | ninf, fin b => if b > 0 then ninf else if b < 0 then pinf else nan
  | pinf, pinf => pinf
  | pinf, ninf => ninf
  | ninf, pinf => ninf
  | ninf, ninf => pinf
  | _, _ => nan

/-- `1.0 / d` for a finite rational `d`: the slab test's inverse direction.
In the model `d = 0` yields `+inf` (IEEE `1.0 / +0.0`; the model has no
negative zero). -/
def invQ (d : ℚ) : FP :=
  if d = 0 then pinf else fin (1 / d)

/-- `num / den` for finite rationals: the sphere-root computation.  Division
by zero yields NaN for a zero numerator and a signed infinity otherwise. -/
def divQ (num den : ℚ) : FP :=
  if den = 0 then
    (if num = 0 then nan else if num > 0 then pinf else ninf)
  else fin (num / den)

/-- Rust `f64::max`: NaN-ignoring maximum. -/
def maxR (a b : FP) : FP :=
  if a = nan then b else if b = nan then a else if lt a b then b else a

/-- Rust `f64::min`: NaN-ignoring minimum. -/
def minR (a b : FP) : FP :=
  if a = nan then b else if b = nan then a else if lt b a then b else a

/-- The finite payload of an `FP`, when there is one. -/
def toQ : FP → Option ℚ
  | fin q => some q
  | _ => none

/-- Rust `partial_cmp` on two model floats. -/
def cmpF : FP → FP → Option Ordering
  | fin a, fin b => some (compare a b)
  | fin _, pinf => some .lt
  | fin _, ninf => some .gt
  | pinf, fin _ => some .gt
  | pinf, pinf => some .eq
  | pinf, ninf => some .gt
  | ninf, fin _ => some .lt
  | ninf, pinf => some .lt
  | ninf, ninf => some .eq
  | _, _ => none

end FP

/-- A 3-component vector of exact rationals (model of `Vec3`). -/
structure Vec3 where
  x : ℚ
  y : ℚ
  z : ℚ
deriving DecidableEq, Repr

namespace Vec3

/-- Component access by axis index, as `Vec3`'s `Index` impl. -/
def comp (v : Vec3) : Fin 3 → ℚ
  | 0 => v.x
  | 1 => v.y
  | 2 => v.z

def add (a b : Vec3) : Vec3 := ⟨a.x + b.x, a.y + b.y, a.z + b.z⟩

def sub (a b : Vec3) : Vec3 := ⟨a.x - b.x, a.y - b.y, a.z - b.z⟩

def neg (a : Vec3) : Vec3 := ⟨-a.x, -a.y, -a.z⟩

def smul (k : ℚ) (a : Vec3) : Vec3 := ⟨k * a.x, k * a.y, k * a.z⟩

/-- Division of a vector by a scalar (exact; the code's `Div<f64>`). -/
def sdiv (a : Vec3) (k : ℚ) : Vec3 := ⟨a.x / k, a.y / k, a.z / k⟩

def dot (a b : Vec3) : ℚ := a.x * b.x + a.y * b.y + a.z * b.z

def length_squared (a : Vec3) : ℚ := a.x * a.x + a.y * a.y + a.z * a.z

/-- `Vec3::length`, with the square root supplied as a parameter. -/
def length (sq : ℚ → ℚ) (a : Vec3) : ℚ := sq a.length_squared

/-- `Vec3::unit`: returns the unit vector, or zero if the vector is zero. -/
def unit (sq : ℚ → ℚ) (a : Vec3) : Vec3 :=
  let len := a.length sq
  if len = 0 then ⟨0, 0, 0⟩ else a.sdiv len

/-- `Vec3::near_zero`: all components below `1e-8` in absolute value. -/
def near_zero (a : Vec3) : Bool :=
  |a.x| < 1 / 100000000 ∧ |a.y| < 1 / 100000000 ∧ |a.z| < 1 / 100000000

/-- `Vec3::reflect`: `v - 2 (v ⬝ n) n`. -/
def reflect (v n : Vec3) : Vec3 := v.sub (smul (2 * v.dot n) n)

end Vec3

/-- A `Point3` is a newtype over `Vec3`; the model identifies them. -/
abbrev Point3 := Vec3

/-- A ray.  `src/ray.rs` is a stale two-field version; every caller in the
repository (`sphere.rs`, `camera.rs`, `bvh.rs` tests) constructs rays as
`Ray::new(origin, direction, time)` and reads `ray.time()`, which matches the
spec's data model `{origin, direction, time}`, so the model carries `time`. -/
structure Ray where
  origin : Point3
  direction : Vec3
  time : ℚ
deriving DecidableEq, Repr

namespace Ray

/-- `Ray::at` (named `atP` because `at` is reserved in Lean): `origin + t * direction`. -/
def atP (r : Ray) (t : ℚ) : Point3 := r.origin.add (Vec3.smul t r.direction)

/-- Modelled from the spec: `Ray::at_time` is called by `Sphere::hit` but is
absent from `src/ray.rs`; the spec (§3) gives `at(t) = origin + t·direction`,
which is what the model uses. -/
def at_time (r : Ray) (t : ℚ) : Point3 := r.atP t

end Ray

/-- An interval of model floats (`interval.rs`; endpoints such as
`f64::INFINITY` occur at call sites, hence `FP` endpoints). -/
structure Interval where
  min : FP
  max : FP
deriving DecidableEq, Repr

namespace Interval

def new (mn mx : FP) : Interval := ⟨mn, mx⟩

/-- `Interval::surrounds`: strict containment `min < v < max` (false whenever
`v` is NaN or an endpoint, as with IEEE comparisons). -/
def surrounds (i : Interval) (v : FP) : Bool :=
  FP.lt i.min v && FP.lt v i.max

end Interval

/-- An axis-aligned bounding box: three intervals (`aabb.rs`). -/
structure Aabb where
  x : Interval
  y : Interval
  z : Interval
deriving DecidableEq, Repr

namespace Aabb

def new (x y z : Interval) : Aabb := ⟨x, y, z⟩

/-- `Aabb::axis_interval` (the model indexes with `Fin 3`, so the
out-of-range panic arm is unreachable). -/
def axis_interval (b : Aabb) : Fin 3 → Interval
  | 0 => b.x
  | 1 => b.y
  | 2 => b.z

/-- Modelled from the spec: `Aabb::surrounding` is called by `bvh.rs` and
`sphere.rs` but absent from `src/aabb.rs`; the spec (§4.1) defines the union
as per-axis min-of-mins and max-of-maxes. -/
def surrounding (a b : Aabb) : Aabb :=
  ⟨⟨FP.minR a.x.min b.x.min, FP.maxR a.x.max b.x.max⟩,
   ⟨FP.minR a.y.min b.y.min, FP.maxR a.y.max b.y.max⟩,
   ⟨FP.minR a.z.min b.z.min, FP.maxR a.z.max b.z.max⟩⟩

end Aabb

/-- A color is a newtype over `Vec3` in `color.rs`; the model identifies
them (components `x`,`y`,`z` are red, green, blue). -/
abbrev Color := Vec3

namespace Color

def new (r g b : ℚ) : Color := ⟨r, g, b⟩

/-- Modelled from the spec: `camera.rs` multiplies two colors
(`ray_color * attenuation`) but `color.rs` has no `Mul<Color>` impl; the
spec (§4.5, "accumulated attenuated color") means componentwise
multiplication. -/
def cmul (a b : Color) : Color := ⟨a.x * b.x, a.y * b.y, a.z * b.z⟩

end Color

/-- The texture variants of `texture.rs`. -/
inductive Texture where
  | solidColor : Color → Texture
  | checkerTexture : ℚ → Texture → Texture → Texture

/-- `Texture::value`.  The checker texture calls `f64::sin`, supplied as the
parameter `sinF`. -/
def Texture.value (sinF : ℚ → ℚ) : Texture → ℚ → ℚ → Point3 → Color
  | .solidColor c, _, _, _ => c
  | .checkerTexture scale odd even, u, v, p =>
      let sines := sinF (scale * p.x) * sinF (scale * p.y) * sinF (scale * p.z)
      if sines > 0 then odd.value sinF u v p else even.value sinF u v p

/-- Rust `f64::clamp` on finite values. -/
def clampQ (v lo hi : ℚ) : ℚ := if v < lo then lo else if v > hi then hi else v

/-- The material variants of `material.rs`. -/
inductive Material where
  | lambertian : Texture → Material
  | metal : Color → ℚ → Material
  | dielectric : ℚ → Material
  | test : Material

namespace Material

/-- `Lambertian::new`. -/
def lambertianNew (t : Texture) : Material := lambertian t

/-- `Metal::new`: the fuzz parameter is clamped to `[0, 1]`. -/
def metalNew (albedo : Color) (fuzz : ℚ) : Material := metal albedo (clampQ fuzz 0 1)

/-- `Dielectric::new`. -/
def dielectricNew (ri : ℚ) : Material := dielectric ri

/-- `Dielectric::reflectance`: Schlick's approximation. -/
def reflectance (cosine refraction_index : ℚ) : ℚ :=
  let r0 := (1 - refraction_index) / (1 + refraction_index)
  let r0 := r0 * r0
  r0 + (1 - r0) * (1 - cosine) ^ (5 : ℕ)

end Material

/-- The random draws one `scatter` call can consume: a random unit vector
(`Vec3::random_unit`) and a uniform draw in `[0,1)` (`random_double`). -/
structure Rng where
  unitVec : Vec3
  uniform : ℚ
deriving DecidableEq, Repr

/-- A hit record (`hittable.rs`).  `t` is a model float because `Aabb`'s
`Hittable` impl stores a possibly infinite running `t_min` in it; the
texture coordinates of `sphere.rs` (`texture_coords`) are carried as `u`,`v`. -/
structure HitRecord where
  position : Point3
  normal : Vec3
  t : FP
  u : ℚ
  v : ℚ
  front_face : Bool
  material : Option Material

namespace HitRecord

/-- `HitRecord::set_face_normal`: orient the stored normal against the ray
direction and record which side was hit. -/
def set_face_normal (rec : HitRecord) (r : Ray) (outward_normal : Vec3) : HitRecord :=
  let ff : Bool := r.direction.dot outward_normal < 0
  { rec with front_face := ff,
             normal := if ff then outward_normal else outward_normal.neg }

end HitRecord

/-- `Material::scatter` (and the four per-material `scatter` methods it
dispatches to).  The square root (`sq`), the checker texture's sine (`sinF`),
and `Vec3::refract` (`refr`; called by `Dielectric::scatter` but absent from
`src/vec3.rs`, so it is an abstract parameter) are supplied explicitly, as is
the random state `rng` consumed by the call. -/
def Material.scatter (sq sinF : ℚ → ℚ) (refr : Vec3 → Vec3 → ℚ → Vec3)
    (rng : Rng) (m : Material) (ray : Ray) (rec : HitRecord) : Color × Ray :=
  match m with
  | .lambertian texture =>
      let scatter_direction := rec.normal.add rng.unitVec
      let scatter_direction :=
        if scatter_direction.near_zero then rec.normal else scatter_direction
      let scatter : Ray := ⟨rec.position, scatter_direction, ray.time⟩
      let attenuation := texture.value sinF rec.u rec.v rec.position
      (attenuation, scatter)
  | .metal albedo fuzz =>
      let reflected := ray.direction.reflect rec.normal
      let reflected := (reflected.unit sq).add (Vec3.smul fuzz rng.unitVec)
      (albedo, ⟨rec.position, reflected, ray.time⟩)
  | .dielectric refraction_index =>
      let attenuation := Color.new 1 1 1
      let ri := if rec.front_face then 1 / refraction_index else refraction_index
      let unit_direction := ray.direction.unit sq
      let cos_theta := min (-(unit_direction.dot rec.normal)) 1
      let sin_theta := sq (1 - cos_theta * cos_theta)
      let cannot_refract : Bool := ri * sin_theta > 1
      let direction :=
        if cannot_refract || (Material.reflectance cos_theta ri > rng.uniform) then
          unit_direction.reflect rec.normal
        else
          refr unit_direction rec.normal ri
      (attenuation, ⟨rec.position, direction, ray.time⟩)
  | .test =>
      (Color.new 1 1 1, ⟨rec.position, rec.normal, ray.time⟩)

/-- A sphere (`sphere.rs`): center, radius, pre-computed squared radius,
material. -/
structure Sphere where
  center : Point3
  radius : ℚ
  radius_squared : ℚ
  material : Material

namespace Sphere

/-- `Sphere::new`: the stored radius is `radius.max(0.0)`, while
`radius_squared` is computed from the *unclamped* argument, exactly as the
source does. -/
def new (center : Point3) (radius : ℚ) (material : Material) : Sphere :=
  { center := center
    radius := max radius 0
    radius_squared := radius * radius
    material := material }

/-- The quadratic's `a` coefficient of `Sphere::hit`: `|direction|²`. -/
def qa (_s : Sphere) (ray : Ray) : ℚ := ray.direction.length_squared

/-- The quadratic's `half_b` coefficient of `Sphere::hit`: `oc ⬝ direction`. -/
def qhb (s : Sphere) (ray : Ray) : ℚ := (ray.origin.sub s.center).dot ray.direction

/-- The quadratic's `c` coefficient of `Sphere::hit`: `|oc|² - radius²`. -/
def qc (s : Sphere) (ray : Ray) : ℚ :=
  (ray.origin.sub s.center).length_squared - s.radius_squared

/-- The discriminant `half_b² - a·c` of `Sphere::hit`. -/
def disc (s : Sphere) (ray : Ray) : ℚ := s.qhb ray * s.qhb ray - s.qa ray * s.qc ray

/-- The closer root `(-half_b - √D) / a` of `Sphere::hit`, as a model float
(IEEE division: `a = 0` produces an infinity or NaN). -/
def root1 (sq : ℚ → ℚ) (s : Sphere) (ray : Ray) : FP :=
  FP.divQ (-s.qhb ray - sq (s.disc ray)) (s.qa ray)

/-- The farther root `(-half_b + √D) / a` of `Sphere::hit`. -/
def root2 (sq : ℚ → ℚ) (s : Sphere) (ray : Ray) : FP :=
  FP.divQ (-s.qhb ray + sq (s.disc ray)) (s.qa ray)

/-- The hit record `Sphere::hit` builds for an accepted root: position from
`ray.at_time`, outward normal `(position - center) / radius`, texture
coordinates from `get_sphere_uv` (supplied as `uvF`), then
`set_face_normal`. -/
def mkRec (uvF : Vec3 → ℚ × ℚ) (s : Sphere) (ray : Ray) (root : ℚ) : HitRecord :=
  let position := ray.at_time root
  let outward_normal := (position.sub s.center).sdiv s.radius
  let texture_coords := uvF outward_normal
  let hit_record : HitRecord :=
    { t := FP.fin root
      position := position
      front_face := true
      material := some s.material
      u := texture_coords.1
      v := texture_coords.2
      normal := outward_normal }
  hit_record.set_face_normal ray outward_normal

/-- `Sphere::hit`: reject a negative discriminant, then try the closer root
and fall back to the farther one, accepting with the strict `surrounds`. -/
def hit (sq : ℚ → ℚ) (uvF : Vec3 → ℚ × ℚ) (s : Sphere) (ray : Ray)
    (ray_t : Interval) : Option HitRecord :=
  if s.disc ray < 0 then none
  else
    let chosen : Option ℚ :=
      if ray_t.surrounds (s.root1 sq ray) then (s.root1 sq ray).toQ
      else if ray_t.surrounds (s.root2 sq ray) then (s.root2 sq ray).toQ
      else none
    chosen.map fun root => s.mkRec uvF ray root

/-- `Sphere::bounding_box`: center ± radius on each axis. -/
def bounding_box (s : Sphere) : Aabb :=
  Aabb.new
    ⟨FP.fin (s.center.x - s.radius), FP.fin (s.center.x + s.radius)⟩
    ⟨FP.fin (s.center.y - s.radius), FP.fin (s.center.y + s.radius)⟩
    ⟨FP.fin (s.center.z - s.radius), FP.fin (s.center.z + s.radius)⟩

end Sphere

/-- General IEEE subtraction on model floats (used for the axis spreads of
BVH construction, whose running bounds start at `±inf`). -/
def FP.sub : FP → FP → FP
  | FP.fin a, FP.fin b => FP.fin (a - b)
  | FP.fin _, FP.pinf => FP.ninf
  | FP.fin _, FP.ninf => FP.pinf
  | FP.pinf, FP.fin _ => FP.pinf
  | FP.ninf, FP.fin _ => FP.ninf
  | FP.pinf, FP.ninf => FP.pinf
  | FP.ninf, FP.pinf => FP.ninf
  | _, _ => FP.nan

namespace Aabb

/-- One iteration of the slab loop of `Aabb::hit` (`aabb.rs` lines 70-95):
narrow the running `[t_min, t_max]` by the axis slab and reject when
`t_max <= t_min`. -/
def slabAxis (b : Aabb) (ray : Ray) (axis : Fin 3) (tmn tmx : FP) :
    Option (FP × FP) :=
  let axis_interval := b.axis_interval axis
  let inv_d := FP.invQ (ray.direction.comp axis)
  let origin_component := ray.origin.comp axis
  let t0 := FP.mul (FP.subQ axis_interval.min origin_component) inv_d
  let t1 := FP.mul (FP.subQ axis_interval.max origin_component) inv_d
  let p := if FP.lt inv_d (FP.fin 0) then (t1, t0) else (t0, t1)
  let tmn := FP.maxR tmn p.1
  let tmx := FP.minR tmx p.2
  if FP.le tmx tmn then none else some (tmn, tmx)

/-- The three-axis slab computation of `Aabb::hit`, returning the final
`(t_min, t_max)` on acceptance. -/
def hitSlab (b : Aabb) (ray : Ray) (ray_t : Interval) : Option (FP × FP) :=
  (slabAxis b ray 0 ray_t.min ray_t.max).bind fun s =>
  (slabAxis b ray 1 s.1 s.2).bind fun s =>
  slabAxis b ray 2 s.1 s.2

/-- The `Hittable` impl of `Aabb`: on acceptance it builds a record carrying
`t = t_min` and arbitrary normal/face data (unused by the BVH, which only
tests for `Some`).  `t_min` can be non-finite, in which case the rational
position is a placeholder, faithful to nothing the program ever reads. -/
def hit (b : Aabb) (ray : Ray) (ray_t : Interval) : Option HitRecord :=
  (hitSlab b ray ray_t).map fun s =>
    { t := s.1
      position := ray.atP ((FP.toQ s.1).getD 0)
      normal := ⟨0, 0, 0⟩
      front_face := true
      u := 0
      v := 0
      material := none }

end Aabb

/-- The `Hittable` implementors a scene list can contain that matter to the
claims: static spheres, and `bvh.rs`'s `DummyHittable`, whose
`bounding_box` is `None` and whose `hit` is always `None`. -/
inductive Object where
  | sphere : Sphere → Object
  | dummy : Object

namespace Object

/-- Dispatch of `Hittable::hit` over the modelled implementors. -/
def hit (sq : ℚ → ℚ) (uvF : Vec3 → ℚ × ℚ) (o : Object) (ray : Ray)
    (ray_t : Interval) : Option HitRecord :=
  match o with
  | sphere s => s.hit sq uvF ray ray_t
  | dummy => none

/-- Dispatch of `Hittable::bounding_box` (the time window is unused by the
modelled implementors). -/
def bounding_box : Object → Option Aabb
  | sphere s => some s.bounding_box
  | dummy => none

end Object

/-- The accumulator pass of `HittableList::hit`: walk the objects, shrinking
the upper bound of the query interval to the closest `t` found so far. -/
def hitListAux (sq : ℚ → ℚ) (uvF : Vec3 → ℚ × ℚ) (ray : Ray) (mn : FP) :
    List Object → FP → Option HitRecord → Option HitRecord
  | [], _, best => best
  | o :: os, closest_so_far, best =>
      match o.hit sq uvF ray (Interval.new mn closest_so_far) with
      | some rec => hitListAux sq uvF ray mn os rec.t (some rec)
      | none => hitListAux sq uvF ray mn os closest_so_far best

/-- `HittableList`: a flat list of objects searched linearly. -/
structure HittableList where
  objects : List Object

/-- `HittableList::hit`: brute-force closest-hit search. -/
def HittableList.hit (sq : ℚ → ℚ) (uvF : Vec3 → ℚ × ℚ) (l : HittableList)
    (ray : Ray) (ray_t : Interval) : Option HitRecord :=
  hitListAux sq uvF ray ray_t.min l.objects ray_t.max none

/-- The construction errors of `bvh.rs`. -/
inductive BvhError where
  | missingBoundingBox : BvhError
  | emptyObjectList : BvhError
deriving DecidableEq, Repr

/-- A BVH node: a branch with two children or a leaf holding one object. -/
inductive BvhNode where
  | branch : BvhNode → BvhNode → Aabb → BvhNode
  | leaf : Object → Aabb → BvhNode

/-- `BvhNode::bounding_box`. -/
def BvhNode.bounding_box : BvhNode → Option Aabb
  | .branch _ _ bbox => some bbox
  | .leaf _ bbox => some bbox

/-- The running per-axis min/max bounds of `Bvh::build`'s first loop,
started at `+inf` / `-inf` and folded with `f64::min` / `f64::max`. -/
def boundsStep (st : (Fin 3 → FP) × (Fin 3 → FP)) (o : Object) :
    Except BvhError ((Fin 3 → FP) × (Fin 3 → FP)) :=
  match o.bounding_box with
  | none => .error .missingBoundingBox
  | some bbox =>
      .ok (fun axis => FP.minR (st.1 axis) (bbox.axis_interval axis).min,
           fun axis => FP.maxR (st.2 axis) (bbox.axis_interval axis).max)

/-- The bounds loop of `Bvh::build`: errors with `MissingBoundingBox` on the
first object lacking a box. -/
def computeBounds (objs : List Object) :
    Except BvhError ((Fin 3 → FP) × (Fin 3 → FP)) :=
  objs.foldlM boundsStep (fun _ => FP.pinf, fun _ => FP.ninf)

/-- The split-axis choice: `(0..3).max_by` on the spreads, which keeps the
later axis on ties (and on the `None` of  `partial_cmp`, via
`unwrap_or(Equal)`). -/
def largestAxis (st : (Fin 3 → FP) × (Fin 3 → FP)) : Fin 3 :=
  let spread := fun a => FP.sub (st.2 a) (st.1 a)
  let step := fun (acc x : Fin 3) =>
    if (FP.cmpF (spread acc) (spread x)).getD .eq = .gt then acc else x
  step (step 0 1) 2

/-- The sort comparator of `Bvh::build` as a boolean `≤`: compare bounding
box minima along `axis`, treating a missing box or an incomparable pair as
equal (`unwrap_or(Ordering::Equal)` at both call sites). -/
def objLe (axis : Fin 3) (a b : Object) : Prop :=
  (match a.bounding_box, b.bounding_box with
   | some ba, some bb =>
       (FP.cmpF (ba.axis_interval axis).min (bb.axis_interval axis).min).getD .eq
   | _, _ => Ordering.eq) ≠ Ordering.gt

instance (axis : Fin 3) : DecidableRel (objLe axis) := fun a b => by
  unfold objLe; infer_instance

/-- Wrap two children in a branch whose box is the union of theirs
(`ok_or(MissingBoundingBox)` on each child box, as the source). -/
def mkBranch (l r : BvhNode) : Except BvhError BvhNode :=
  match l.bounding_box with
  | none => .error .missingBoundingBox
  | some lb =>
      match r.bounding_box with
      | none => .error .missingBoundingBox
      | some rb => .ok (.branch l r (Aabb.surrounding lb rb))

/-- `Bvh::build`.  The model sorts with Mathlib's stable insertion sort in
place of Rust's stable `sort_by`; both are stable, so they produce the same
ordering for this total comparator, and the theorems below only use that the
result is a permutation.  The two-object case is the sort of a pair written
out: swap exactly when the comparator says `Greater`. -/
def Bvh.build : List Object → Except BvhError BvhNode
  | [] => .error .emptyObjectList
  | [o] => do
      let _ ← computeBounds [o]
      match o.bounding_box with
      | none => .error .missingBoundingBox
      | some bbox => pure (BvhNode.leaf o bbox)
  | [o₁, o₂] => do
      let bounds ← computeBounds [o₁, o₂]
      let axis := largestAxis bounds
      let p := if objLe axis o₁ o₂ then (o₁, o₂) else (o₂, o₁)
      let left ← Bvh.build [p.1]
      let right ← Bvh.build [p.2]
      mkBranch left right
  | a :: b :: c :: rest => do
      let objs := a :: b :: c :: rest
      let bounds ← computeBounds objs
      let axis := largestAxis bounds
      let sorted := objs.insertionSort (objLe axis)
      let mid := objs.length / 2
      let left ← Bvh.build (sorted.take mid)
      let right ← Bvh.build (sorted.drop mid)
      mkBranch left right
termination_by objs => objs.length
decreasing_by
  · simp
  · simp
  · simp only [List.length_take, List.length_insertionSort, List.length_cons]
    omega
  · simp only [List.length_drop, List.length_insertionSort, List.length_cons]
    omega

/-- The BVH wrapper: the tree and its root box. -/
structure Bvh where
  tree : BvhNode
  bbox : Aabb

/-- `Bvh::new`: reject an empty list, build, and read off the root box. -/
def Bvh.new (objects : List Object) : Except BvhError Bvh :=
  if objects.isEmpty then .error .emptyObjectList
  else do
    let tree ← Bvh.build objects
    match tree.bounding_box with
    | none => .error .missingBoundingBox
    | some bbox => pure { tree := tree, bbox := bbox }

/-- `BvhNode::hit`: prune by the node box, query left over the full range,
shrink the upper bound to the left hit's `t`, query right, prefer right. -/
def BvhNode.hit (sq : ℚ → ℚ) (uvF : Vec3 → ℚ × ℚ) :
    BvhNode → Ray → Interval → Option HitRecord
  | .branch left right bbox, r, ray_t =>
      (bbox.hit r ray_t).bind fun _ =>
        let hit_left := left.hit sq uvF r ray_t
        let t_max := match hit_left with
          | some rec => Interval.new ray_t.min rec.t
          | none => ray_t
        let hit_right := right.hit sq uvF r t_max
        hit_right.or hit_left
  | .leaf object bbox, r, ray_t =>
      (bbox.hit r ray_t).bind fun _ => object.hit sq uvF r ray_t

/-- The `Hittable` impl of `Bvh`: delegate to the root node. -/
def Bvh.hit (sq : ℚ → ℚ) (uvF : Vec3 → ℚ × ℚ) (b : Bvh) (r : Ray)
    (ray_t : Interval) : Option HitRecord :=
  b.tree.hit sq uvF r ray_t

namespace Camera

def BLACK : Color := Color.new 0 0 0

def WHITE : Color := Color.new 1 1 1

def SKY_BLUE : Color := Color.new (1/2) (7/10) 1

/-- The lower bound of every radiance intersection query, `RAY_T_MIN`. -/
def RAY_T_MIN : ℚ := 1 / 1000

/-- `Camera::ray_color`: the recursive radiance estimator.  The scene is the
abstract `world` intersection function (the `&dyn Hittable` argument), and
`rngs d` supplies the random draws consumed by the scatter call made at
remaining depth `d + 1`. -/
def ray_color (sq sinF : ℚ → ℚ) (refr : Vec3 → Vec3 → ℚ → Vec3)
    (rngs : ℕ → Rng) (world : Ray → Interval → Option HitRecord) :
    ℕ → Ray → Color
  | 0, _ => BLACK
  | depth + 1, ray =>
      match world ray (Interval.new (FP.fin RAY_T_MIN) FP.pinf) with
      | some hit_record =>
          match hit_record.material with
          | some material =>
              let s := material.scatter sq sinF refr (rngs depth) ray hit_record
              Color.cmul (ray_color sq sinF refr rngs world depth s.2) s.1
          | none => BLACK
      | none =>
          let unit_direction := ray.direction.unit sq
          let t := (1/2) * (unit_direction.y + 1)
          (Vec3.smul (1 - t) WHITE).add (Vec3.smul t SKY_BLUE)

end Camera

/-- The lower endpoint of a box on an axis. -/
def Aabb.lo (b : Aabb) (axis : Fin 3) : FP := (b.axis_interval axis).min

/-- The upper endpoint of a box on an axis. -/
def Aabb.hi (b : Aabb) (axis : Fin 3) : FP := (b.axis_interval axis).max

/-- Box containment, per axis in the model-float order. -/
def Aabb.subset (inner outer : Aabb) : Prop :=
  ∀ axis : Fin 3,
    FP.le (outer.lo axis) (inner.lo axis) = true ∧
    FP.le (inner.hi axis) (outer.hi axis) = true

/-- All endpoints of the box are finite. -/
def Aabb.isFin (b : Aabb) : Prop :=
  ∀ axis : Fin 3, (∃ q, b.lo axis = FP.fin q) ∧ (∃ q, b.hi axis = FP.fin q)

/-- The root the sphere-hit selection would accept against a lower bound
`mn`, before the upper bound is consulted: the closer root if it clears
`mn`, else the farther root if it clears `mn`, else nothing.  Because
acceptance against the upper bound is monotone, `Sphere::hit` on
`(mn, mx)` is exactly this candidate filtered by `< mx` (proved below). -/
def Sphere.cand (sq : ℚ → ℚ) (s : Sphere) (ray : Ray) (mn : FP) : Option ℚ :=
  if s.disc ray < 0 then none
  else if FP.lt mn (s.root1 sq ray) then (s.root1 sq ray).toQ
  else if FP.lt mn (s.root2 sq ray) then (s.root2 sq ray).toQ
  else none

/-- The candidate of an arbitrary object (a dummy never hits). -/
def Object.cand (sq : ℚ → ℚ) (o : Object) (ray : Ray) (mn : FP) : Option ℚ :=
  match o with
  | .sphere s => s.cand sq ray mn
  | .dummy => none

/-- Combine optional candidates by minimum. -/
def omin : Option ℚ → Option ℚ → Option ℚ
  | none, b => b
  | some a, none => some a
  | some a, some b => some (min a b)

/-- The smallest candidate over a list of objects. -/
def candMin (sq : ℚ → ℚ) (objs : List Object) (ray : Ray) (mn : FP) : Option ℚ :=
  objs.foldr (fun o acc => omin (o.cand sq ray mn) acc) none

/-- Filter a candidate by the upper interval bound (false for NaN bounds,
like the IEEE comparison). -/
def thresh (oc : Option ℚ) (mx : FP) : Option FP :=
  oc.bind fun q => if FP.lt (FP.fin q) mx then some (FP.fin q) else none

/-- The objects stored at the leaves of a BVH subtree, left to right. -/
def BvhNode.objs : BvhNode → List Object
  | .branch l r _ => l.objs ++ r.objs
  | .leaf o _ => [o]

/-- The box stored in a node. -/
def BvhNode.bboxOf : BvhNode → Aabb
  | .branch _ _ bbox => bbox
  | .leaf _ bbox => bbox

/-- The structural invariant `Bvh::build` establishes: each leaf's box is
its object's reported box, and each branch's box is the union of its
children's. -/
def BvhNode.wf : BvhNode → Prop
  | .leaf o bbox => o.bounding_box = some bbox
  | .branch l r bbox => l.wf ∧ r.wf ∧ bbox = Aabb.surrounding l.bboxOf r.bboxOf

/-- The square-root parameter behaves like `f64::sqrt` at the single point
`d`: nonnegative with exact square `d` (for nonnegative `d`). -/
def sqrtGoodAt (sq : ℚ → ℚ) (d : ℚ) : Prop := 0 ≤ d → 0 ≤ sq d ∧ sq d * sq d = d

/-- An object fit for the BVH/brute-force equivalence: a sphere of strictly
positive radius whose cached `radius_squared` is consistent, with a square
root that is exact at its discriminant for the query ray. -/
def sphereOk (sq : ℚ → ℚ) (ray : Ray) (o : Object) : Prop :=
  ∃ s, o = Object.sphere s ∧ 0 < s.radius ∧
    s.radius_squared = s.radius * s.radius ∧ sqrtGoodAt sq (s.disc ray)

/-! Concrete fixtures used by witnesses and counterexamples. -/

/-- A square-root function exact at `0` and `1` (all witness discriminants
used below are `0` or `1`). -/
def sqF : ℚ → ℚ := fun q => if q = 1 then 1 else 0

/-- A trivial texture-coordinate map for witnesses. -/
def uvZ : Vec3 → ℚ × ℚ := fun _ => (0, 0)

/-- A trivial refraction function for witnesses (its value is irrelevant to
every statement that receives it). -/
def refrZ : Vec3 → Vec3 → ℚ → Vec3 := fun _ _ _ => ⟨0, 0, 0⟩

/-- The ray from the origin along `+z`. -/
def rayZ : Ray := ⟨⟨0, 0, 0⟩, ⟨0, 0, 1⟩, 0⟩

/-- The acceptance interval `(0.001, +inf)` the renderer uses. -/
def iHit : Interval := ⟨FP.fin (1 / 1000), FP.pinf⟩

/-- A unit sphere at `(0,0,5)` (test material). -/
def sphA : Sphere := Sphere.new ⟨0, 0, 5⟩ 1 Material.test

/-- A unit sphere at `(0,0,9)` (test material). -/
def sphB : Sphere := Sphere.new ⟨0, 0, 9⟩ 1 Material.test

/-- A zero-radius sphere at `(0,0,5)` (test material). -/
def sphP : Sphere := Sphere.new ⟨0, 0, 5⟩ 0 Material.test


/-- A trivial sine for witnesses (no checker textures are evaluated). -/
def sinZ : ℚ → ℚ := fun _ => 0

/-- A fixed random state for witnesses. -/
def rng0 : Rng := ⟨⟨0, 0, 0⟩, 0⟩

/-- The ray from the origin along `+x`. -/
def rayX : Ray := ⟨⟨0, 0, 0⟩, ⟨1, 0, 0⟩, 0⟩

/-- A back-face hit record at grazing incidence for the total-internal-
reflection witness. -/
def recTIR : HitRecord :=
  { position := ⟨0, 0, 0⟩, normal := ⟨0, 1, 0⟩, t := FP.fin 1,
    u := 0, v := 0, front_face := false, material := none }

/-- A hit record with no material. -/
def recNoMat : HitRecord :=
  { position := ⟨0, 0, 0⟩, normal := ⟨0, 1, 0⟩, t := FP.fin 1,
    u := 0, v := 0, front_face := true, material := none }

/-- A front-face hit record for the metal counterexample. -/
def recMetal : HitRecord :=
  { position := ⟨0, 0, 0⟩, normal := ⟨0, 1, 0⟩, t := FP.fin 1,
    u := 0, v := 0, front_face := true, material := none }

/-- The head-on ray for the metal counterexample. -/
def rayDown : Ray := ⟨⟨0, 1, 0⟩, ⟨0, -1, 0⟩, 0⟩

/-- The bounding box of the zero-radius sphere `sphP`: a single point. -/
def bbP : Aabb := ⟨⟨FP.fin 0, FP.fin 0⟩, ⟨FP.fin 0, FP.fin 0⟩, ⟨FP.fin 5, FP.fin 5⟩⟩

/-- The BVH that `Bvh::new` builds from the one-element list `[sphP]`. -/
def bP : Bvh := ⟨BvhNode.leaf (Object.sphere sphP) bbP, bbP⟩

/-- The bounding box of `sphA`. -/
def bbA : Aabb := ⟨⟨FP.fin (-1), FP.fin 1⟩, ⟨FP.fin (-1), FP.fin 1⟩, ⟨FP.fin 4, FP.fin 6⟩⟩

/-- The bounding box of `sphB`. -/
def bbB : Aabb := ⟨⟨FP.fin (-1), FP.fin 1⟩, ⟨FP.fin (-1), FP.fin 1⟩, ⟨FP.fin 8, FP.fin 10⟩⟩

/-- The union of `bbA` and `bbB`. -/
def bbU : Aabb := ⟨⟨FP.fin (-1), FP.fin 1⟩, ⟨FP.fin (-1), FP.fin 1⟩, ⟨FP.fin 4, FP.fin 10⟩⟩

/-- The BVH that `Bvh::new` builds from `[sphB, sphA]`: the split axis is
`z` and the sort puts `sphA` first. -/
def bW : Bvh :=
  ⟨BvhNode.branch (BvhNode.leaf (Object.sphere sphA) bbA)
      (BvhNode.leaf (Object.sphere sphB) bbB) bbU, bbU⟩


/-! Basic lemmas. -/

theorem Vec3.dot_neg (a b : Vec3) : a.dot b.neg = -(a.dot b) := by
  simp [Vec3.dot, Vec3.neg]; ring

theorem Vec3.length_squared_eq_zero {v : Vec3} :
    v.length_squared = 0 ↔ v = ⟨0, 0, 0⟩ := by
  constructor
  · intro h
    unfold Vec3.length_squared at h
    have hx : v.x = 0 := by nlinarith [mul_self_nonneg v.x, mul_self_nonneg v.y, mul_self_nonneg v.z]
    have hy : v.y = 0 := by nlinarith [mul_self_nonneg v.x, mul_self_nonneg v.y, mul_self_nonneg v.z]
    have hz : v.z = 0 := by nlinarith [mul_self_nonneg v.x, mul_self_nonneg v.y, mul_self_nonneg v.z]
    cases v; simp_all
  · intro h; subst h; simp [Vec3.length_squared]

theorem fp_lt_irr (a : FP) : FP.lt a a = false := by
  cases a <;> simp [FP.lt]

theorem fp_lt_ne {a b : FP} (h : FP.lt a b = true) : a ≠ b := by
  intro he; subst he; rw [fp_lt_irr] at h; exact Bool.false_ne_true h

theorem fp_lt_ne' {a b : FP} (h : FP.lt a b = true) : b ≠ a := fun he => fp_lt_ne h he.symm

theorem fp_le_trans {a b c : FP} (h1 : FP.le a b = true) (h2 : FP.le b c = true) :
    FP.le a c = true := by
  cases a <;> cases b <;> cases c <;> simp_all [FP.le] <;> linarith

theorem fp_lt_of_lt_of_le {a b c : FP} (h1 : FP.lt a b = true) (h2 : FP.le b c = true) :
    FP.lt a c = true := by
  cases a <;> cases b <;> cases c <;> simp_all [FP.le, FP.lt] <;> linarith

theorem fp_lt_of_le_of_lt {a b c : FP} (h1 : FP.le a b = true) (h2 : FP.lt b c = true) :
    FP.lt a c = true := by
  cases a <;> cases b <;> cases c <;> simp_all [FP.le, FP.lt] <;> linarith

theorem fp_le_of_lt {a b : FP} (h : FP.lt a b = true) : FP.le a b = true := by
  cases a <;> cases b <;> simp_all [FP.le, FP.lt] <;> linarith

theorem fp_le_antisymm {a b : FP} (h1 : FP.le a b = true) (h2 : FP.le b a = true) :
    a = b := by
  cases a <;> cases b <;> simp_all [FP.le] <;> linarith

theorem fp_not_le_of_chain {a b c : FP} (h1 : FP.le a b = true) (h2 : FP.le b c = true)
    (h3 : FP.lt a b = true ∨ FP.lt b c = true) : FP.le c a = false := by
  rcases h3 with h | h
  · cases a <;> cases b <;> cases c <;> simp_all [FP.le, FP.lt] <;> linarith
  · cases a <;> cases b <;> cases c <;> simp_all [FP.le, FP.lt] <;> linarith

theorem fp_maxR_le {a b c : FP} (h1 : FP.le a c = true) (h2 : FP.le b c = true) :
    FP.le (FP.maxR a b) c = true := by
  unfold FP.maxR; split_ifs <;> assumption

theorem fp_maxR_lt {a b c : FP} (h1 : FP.lt a c = true) (h2 : FP.lt b c = true) :
    FP.lt (FP.maxR a b) c = true := by
  unfold FP.maxR; split_ifs <;> assumption

theorem fp_le_minR {a b c : FP} (h1 : FP.le c a = true) (h2 : FP.le c b = true) :
    FP.le c (FP.minR a b) = true := by
  unfold FP.minR; split_ifs <;> assumption

theorem fp_lt_minR {a b c : FP} (h1 : FP.lt c a = true) (h2 : FP.lt c b = true) :
    FP.lt c (FP.minR a b) = true := by
  unfold FP.minR; split_ifs <;> assumption

theorem fp_lt_fin_fin {a b : ℚ} : FP.lt (FP.fin a) (FP.fin b) = true ↔ a < b := by
  simp [FP.lt]

theorem fp_le_fin_fin {a b : ℚ} : FP.le (FP.fin a) (FP.fin b) = true ↔ a ≤ b := by
  simp [FP.le]

/-! Claim theorems: normal orientation, vector normalization, sphere root
selection. -/

/-- C5: for every ray and outward normal, after `set_face_normal` the hit
record satisfies `dot(ray.direction, stored_normal) ≤ 0`; `front_face` is
true iff `dot(ray.direction, outward_normal) < 0`, and the stored normal is
the outward normal unchanged when front-facing and its negation otherwise.
(The model proves it for every vector, unit or not.) -/
theorem set_face_normal_opposes_ray (rec : HitRecord) (r : Ray) (n : Vec3) :
    r.direction.dot ((rec.set_face_normal r n).normal) ≤ 0 ∧
    ((rec.set_face_normal r n).front_face = true ↔ r.direction.dot n < 0) ∧
    (rec.set_face_normal r n).normal = if r.direction.dot n < 0 then n else n.neg := by
  unfold HitRecord.set_face_normal
  by_cases h : r.direction.dot n < 0 <;>
    simp [h, Vec3.dot_neg] <;> linarith

/-- C10: `Vec3::unit` is total and never divides by zero: the zero vector
maps to the zero vector, and any nonzero vector (whose squared length the
square-root parameter inverts exactly) has nonzero length and maps to
itself divided by its length. -/
theorem unit_total_no_nan (sq : ℚ → ℚ) (v : Vec3)
    (hsq : sq v.length_squared * sq v.length_squared = v.length_squared) :
    Vec3.unit sq ⟨0, 0, 0⟩ = ⟨0, 0, 0⟩ ∧
    (v ≠ ⟨0, 0, 0⟩ →
      Vec3.length sq v ≠ 0 ∧ Vec3.unit sq v = v.sdiv (Vec3.length sq v)) := by
  constructor
  · simp only [Vec3.unit]
    split_ifs <;> simp [Vec3.sdiv]
  · intro hv
    have hlsq : v.length_squared ≠ 0 := fun h => hv (Vec3.length_squared_eq_zero.mp h)
    have hlen : Vec3.length sq v ≠ 0 := by
      intro h
      unfold Vec3.length at h
      rw [h] at hsq
      simp at hsq
      exact hlsq hsq.symm
    refine ⟨hlen, ?_⟩
    unfold Vec3.unit
    simp only []
    rw [if_neg hlen]

/-- Witness for C10 at `v = (3,4,0)` with a square root exact at `25`. -/
theorem unit_total_no_nan_witness :
    Vec3.unit (fun q => if q = 25 then 5 else 0) ⟨0, 0, 0⟩ = ⟨0, 0, 0⟩ ∧
    ((⟨3, 4, 0⟩ : Vec3) ≠ ⟨0, 0, 0⟩ →
      Vec3.length (fun q => if q = 25 then 5 else 0) ⟨3, 4, 0⟩ ≠ 0 ∧
      Vec3.unit (fun q => if q = 25 then 5 else 0) ⟨3, 4, 0⟩ =
        Vec3.sdiv ⟨3, 4, 0⟩ (Vec3.length (fun q => if q = 25 then 5 else 0) ⟨3, 4, 0⟩)) :=
  unit_total_no_nan (fun q => if q = 25 then 5 else 0) ⟨3, 4, 0⟩
    (by norm_num [Vec3.length_squared])

/-- C2: sphere intersection with nonnegative discriminant computes both
roots; it prefers the closer root `(-h - √D)/a` whenever that root lies
strictly inside the interval (`surrounds`), falls back to the farther root
`(-h + √D)/a` only when the closer one is rejected, returns no hit when both
are rejected, and never accepts a root equal to an interval endpoint.  When
`a ≠ 0` (and the square root is exact at the discriminant) the preferred
root is indeed the smaller of the two. -/
theorem sphere_hit_root_selection (sq : ℚ → ℚ) (uvF : Vec3 → ℚ × ℚ) (s : Sphere)
    (ray : Ray) (ray_t : Interval) (hD : 0 ≤ s.disc ray)
    (hsq : sqrtGoodAt sq (s.disc ray)) :
    (ray_t.surrounds (s.root1 sq ray) = true →
      (s.hit sq uvF ray ray_t).map (fun h : HitRecord => h.t) = some (s.root1 sq ray)) ∧
    (ray_t.surrounds (s.root1 sq ray) = false →
      ray_t.surrounds (s.root2 sq ray) = true →
      (s.hit sq uvF ray ray_t).map (fun h : HitRecord => h.t) = some (s.root2 sq ray)) ∧
    (ray_t.surrounds (s.root1 sq ray) = false →
      ray_t.surrounds (s.root2 sq ray) = false →
      s.hit sq uvF ray ray_t = none) ∧
    (∀ rec, s.hit sq uvF ray ray_t = some rec →
      ray_t.surrounds rec.t = true ∧ rec.t ≠ ray_t.min ∧ rec.t ≠ ray_t.max) ∧
    (s.qa ray ≠ 0 → FP.le (s.root1 sq ray) (s.root2 sq ray) = true) := by
  have hro : ∀ r : FP, ray_t.surrounds r = true → ∃ q, r = FP.fin q := by
    intro r hr
    cases r <;> simp_all [Interval.surrounds, FP.lt]
  have hmk : ∀ root : ℚ, (s.mkRec uvF ray root).t = FP.fin root := by
    intro root
    simp [Sphere.mkRec, HitRecord.set_face_normal]
  have case1 : ray_t.surrounds (s.root1 sq ray) = true →
      (s.hit sq uvF ray ray_t).map (fun h : HitRecord => h.t) = some (s.root1 sq ray) := by
    intro h1
    obtain ⟨q, hq⟩ := hro _ h1
    have h1' : ray_t.surrounds (FP.fin q) = true := hq ▸ h1
    simp [Sphere.hit, not_lt.mpr hD, hq, h1', FP.toQ, hmk]
  have case2 : ray_t.surrounds (s.root1 sq ray) = false →
      ray_t.surrounds (s.root2 sq ray) = true →
      (s.hit sq uvF ray ray_t).map (fun h : HitRecord => h.t) = some (s.root2 sq ray) := by
    intro h1 h2
    obtain ⟨q, hq⟩ := hro _ h2
    have h2' : ray_t.surrounds (FP.fin q) = true := hq ▸ h2
    simp [Sphere.hit, not_lt.mpr hD, hq, h1, h2', FP.toQ, hmk]
  have case3 : ray_t.surrounds (s.root1 sq ray) = false →
      ray_t.surrounds (s.root2 sq ray) = false →
      s.hit sq uvF ray ray_t = none := by
    intro h1 h2
    simp [Sphere.hit, not_lt.mpr hD, h1, h2]
  refine ⟨case1, case2, case3, ?_, ?_⟩
  · intro rec hrec
    by_cases hb1 : ray_t.surrounds (s.root1 sq ray) = true
    · have := case1 hb1
      rw [hrec] at this
      have ht : rec.t = s.root1 sq ray := Option.some.inj this
      rw [ht]
      have hlo := (Bool.and_eq_true _ _).mp hb1
      exact ⟨hb1, fp_lt_ne' hlo.1, fp_lt_ne hlo.2⟩
    · rw [Bool.not_eq_true] at hb1
      by_cases hb2 : ray_t.surrounds (s.root2 sq ray) = true
      · have := case2 hb1 hb2
        rw [hrec] at this
        have ht : rec.t = s.root2 sq ray := Option.some.inj this
        rw [ht]
        have hlo := (Bool.and_eq_true _ _).mp hb2
        exact ⟨hb2, fp_lt_ne' hlo.1, fp_lt_ne hlo.2⟩
      · rw [Bool.not_eq_true] at hb2
        rw [case3 hb1 hb2] at hrec
        exact absurd hrec (by simp)
  · intro ha
    obtain ⟨hnn, hsqr⟩ := hsq hD
    unfold Sphere.root1 Sphere.root2 FP.divQ
    rw [if_neg ha, if_neg ha, fp_le_fin_fin]
    have ha2 : 0 < s.qa ray := by
      have h0 : 0 ≤ s.qa ray := by
        unfold Sphere.qa Vec3.length_squared
        nlinarith [mul_self_nonneg ray.direction.x, mul_self_nonneg ray.direction.y,
          mul_self_nonneg ray.direction.z]
      rcases h0.lt_or_eq with h | h
      · exact h
      · exact absurd h.symm ha
    rw [div_le_div_iff ha2 ha2]
    nlinarith

theorem sphA_disc : sphA.disc rayZ = 1 := by
  norm_num [Sphere.disc, Sphere.qa, Sphere.qhb, Sphere.qc, sphA, rayZ, Sphere.new,
    Vec3.dot, Vec3.sub, Vec3.length_squared]

/-- Witness for C2 at the unit sphere `(0,0,5)` and the `+z` ray from the
origin (discriminant `1`). -/
theorem sphere_hit_root_selection_witness :
    (iHit.surrounds (sphA.root1 sqF rayZ) = true →
      (sphA.hit sqF uvZ rayZ iHit).map (fun h : HitRecord => h.t) = some (sphA.root1 sqF rayZ)) ∧
    (iHit.surrounds (sphA.root1 sqF rayZ) = false →
      iHit.surrounds (sphA.root2 sqF rayZ) = true →
      (sphA.hit sqF uvZ rayZ iHit).map (fun h : HitRecord => h.t) = some (sphA.root2 sqF rayZ)) ∧
    (iHit.surrounds (sphA.root1 sqF rayZ) = false →
      iHit.surrounds (sphA.root2 sqF rayZ) = false →
      sphA.hit sqF uvZ rayZ iHit = none) ∧
    (∀ rec, sphA.hit sqF uvZ rayZ iHit = some rec →
      iHit.surrounds rec.t = true ∧ rec.t ≠ iHit.min ∧ rec.t ≠ iHit.max) ∧
    (sphA.qa rayZ ≠ 0 → FP.le (sphA.root1 sqF rayZ) (sphA.root2 sqF rayZ) = true) :=
  sphere_hit_root_selection sqF uvZ sphA rayZ iHit (by rw [sphA_disc]; norm_num)
    (by rw [sphA_disc]; intro _; norm_num [sqF])

/-- C4: the radiance estimator is total — for every square root, scatter
randomness, scene, depth and ray it returns a color — and at depth `0` it
returns BLACK for every ray and every scene (the scene function is
quantified, so no intersection query can influence the result). -/
theorem ray_color_total_and_black_at_zero :
    (∀ (sq sinF : ℚ → ℚ) (refr : Vec3 → Vec3 → ℚ → Vec3) (rngs : ℕ → Rng)
       (world : Ray → Interval → Option HitRecord) (ray : Ray),
        Camera.ray_color sq sinF refr rngs world 0 ray = Camera.BLACK) ∧
    (∀ (sq sinF : ℚ → ℚ) (refr : Vec3 → Vec3 → ℚ → Vec3) (rngs : ℕ → Rng)
       (world : Ray → Interval → Option HitRecord) (d : ℕ) (ray : Ray),
        ∃ c : Color, Camera.ray_color sq sinF refr rngs world d ray = c) :=
  ⟨fun _ _ _ _ _ _ => rfl, fun _ _ _ _ _ _ _ => ⟨_, rfl⟩⟩

/-- C9: an axis whose ray-direction component is exactly zero and whose
ray-origin component lies strictly inside the box's interval on that axis
never causes rejection in the slab test: the infinite inverse direction
makes the per-axis bounds `-inf` / `+inf` (or NaN at a boundary), which the
NaN-ignoring `max`/`min` discard, so the axis step leaves the running
interval unchanged and rejects only if it was already empty.  (Totality of
the slab test is inherent: `Aabb.hit` is a total function of the model.) -/
theorem slab_zero_direction_axis_no_reject (b : Aabb) (ray : Ray) (axis : Fin 3)
    (tmn tmx : FP)
    (hd : ray.direction.comp axis = 0)
    (hlo : FP.lt ((b.axis_interval axis).min) (FP.fin (ray.origin.comp axis)) = true)
    (hhi : FP.lt (FP.fin (ray.origin.comp axis)) ((b.axis_interval axis).max) = true)
    (hmn : tmn ≠ FP.nan) (hmx : tmx ≠ FP.nan) :
    Aabb.slabAxis b ray axis tmn tmx =
      if FP.le tmx tmn = true then none else some (tmn, tmx) := by
  have ht0 : FP.mul (FP.subQ ((b.axis_interval axis).min) (ray.origin.comp axis))
      FP.pinf = FP.ninf := by
    cases hc : (b.axis_interval axis).min with
    | fin l =>
        rw [hc, fp_lt_fin_fin] at hlo
        have h1 : ¬(l - ray.origin.comp axis > 0) := by linarith
        have h2 : l - ray.origin.comp axis < 0 := by linarith
        simp only [FP.subQ, FP.mul, if_neg h1, if_pos h2]
    | pinf => rw [hc] at hlo; simp [FP.lt] at hlo
    | ninf => simp [FP.subQ, FP.mul]
    | nan => rw [hc] at hlo; simp [FP.lt] at hlo
  have ht1 : FP.mul (FP.subQ ((b.axis_interval axis).max) (ray.origin.comp axis))
      FP.pinf = FP.pinf := by
    cases hc : (b.axis_interval axis).max with
    | fin m =>
        rw [hc, fp_lt_fin_fin] at hhi
        have h1 : m - ray.origin.comp axis > 0 := by linarith
        simp only [FP.subQ, FP.mul, if_pos h1]
    | pinf => simp [FP.subQ, FP.mul]
    | ninf => rw [hc] at hhi; simp [FP.lt] at hhi
    | nan => rw [hc] at hhi; simp [FP.lt] at hhi
  have hmax : FP.maxR tmn FP.ninf = tmn := by
    unfold FP.maxR; cases tmn <;> simp_all [FP.lt]
  have hmin : FP.minR tmx FP.pinf = tmx := by
    unfold FP.minR; cases tmx <;> simp_all [FP.lt]
  simp [Aabb.slabAxis, hd, FP.invQ, ht0, ht1, FP.lt, hmax, hmin]

/-- Witness for C9: the `+z` ray has a zero `x` direction component and its
origin is strictly inside the `x` slab of the unit sphere at `(0,0,5)`; the
axis step keeps `(0.001, +inf)` unchanged. -/
theorem slab_zero_direction_axis_no_reject_witness :
    Aabb.slabAxis sphA.bounding_box rayZ 0 (FP.fin (1 / 1000)) FP.pinf =
      some (FP.fin (1 / 1000), FP.pinf) := by
  have h := slab_zero_direction_axis_no_reject sphA.bounding_box rayZ 0
    (FP.fin (1 / 1000)) FP.pinf
    (by norm_num [rayZ, Vec3.comp])
    (by norm_num [sphA, Sphere.new, Sphere.bounding_box, Aabb.new, Aabb.axis_interval,
          rayZ, Vec3.comp, FP.lt])
    (by norm_num [sphA, Sphere.new, Sphere.bounding_box, Aabb.new, Aabb.axis_interval,
          rayZ, Vec3.comp, FP.lt])
    (by simp) (by simp)
  rw [h]
  simp [FP.le]

/-- C7: under total internal reflection — when the effective index ratio
times the sine computed from the incoming direction exceeds 1 — the
dielectric scatter returns the reflected direction (with white attenuation)
for every value of the uniform random draw and every refraction function. -/
theorem dielectric_tir_always_reflects (sq sinF : ℚ → ℚ)
    (refr : Vec3 → Vec3 → ℚ → Vec3) (rng : Rng) (ri : ℚ) (ray : Ray)
    (rec : HitRecord)
    (h : (if rec.front_face then 1 / ri else ri) *
        sq (1 - min (-((ray.direction.unit sq).dot rec.normal)) 1 *
              min (-((ray.direction.unit sq).dot rec.normal)) 1) > 1) :
    Material.scatter sq sinF refr rng (Material.dielectric ri) ray rec =
      (Color.new 1 1 1,
       ⟨rec.position, (ray.direction.unit sq).reflect rec.normal, ray.time⟩) := by
  unfold Material.scatter
  simp only [decide_eq_true h, Bool.true_or, if_true]

/-- Witness for C7: a grazing back-face hit on a dielectric of index `3/2`
(`cos θ = 0`, `sin θ = 1`, ratio `3/2 > 1`). -/
theorem dielectric_tir_always_reflects_witness :
    Material.scatter sqF sinZ refrZ rng0 (Material.dielectric (3 / 2)) rayX recTIR =
      (Color.new 1 1 1,
       ⟨recTIR.position, (rayX.direction.unit sqF).reflect recTIR.normal, rayX.time⟩) :=
  dielectric_tir_always_reflects sqF sinZ refrZ rng0 (3 / 2) rayX recTIR
    (by norm_num [recTIR, rayX, Vec3.unit, Vec3.length, Vec3.length_squared,
      Vec3.dot, Vec3.sdiv, sqF])

/-- Counterexample for C3.  The claim says `scatter` returns an *optional*
pair in which explicit absorption yields no outgoing ray.  In the code
`Material::scatter` returns a plain `(Color, Ray)` — there is no `Option`
and no absorption branch.  Concretely: a maximally fuzzed metal hit head-on,
with the random unit draw opposite the reflection, produces the degenerate
zero scatter direction — the case a scatter contract with absorption would
reject — and the code still returns an outgoing ray (with direction `0`). -/
theorem metal_scatter_never_absorbs :
    Material.scatter sqF sinZ refrZ ⟨⟨0, -1, 0⟩, 0⟩
      (Material.metalNew (Color.new (4/5) (4/5) (4/5)) 1) rayDown recMetal =
      (Color.new (4/5) (4/5) (4/5), ⟨⟨0, 0, 0⟩, ⟨0, 0, 0⟩, 0⟩) := by
  norm_num [Material.scatter, Material.metalNew, clampQ, recMetal, rayDown,
    Vec3.reflect, Vec3.dot, Vec3.smul, Vec3.sub, Vec3.add, Vec3.unit, Vec3.length,
    Vec3.length_squared, Vec3.sdiv, sqF, Color.new]

/-- C3 (amended): `Material::scatter` is total on plain pairs — every
material, ray and hit record yield an attenuation and an outgoing ray, with
no absorption case — and when a hit record carries no material the radiance
estimator returns BLACK at any positive depth. -/
theorem scatter_total_and_missing_material_black :
    (∀ (sq sinF : ℚ → ℚ) (refr : Vec3 → Vec3 → ℚ → Vec3) (rng : Rng)
       (m : Material) (ray : Ray) (rec : HitRecord),
        ∃ att out, Material.scatter sq sinF refr rng m ray rec = (att, out)) ∧
    (∀ (sq sinF : ℚ → ℚ) (refr : Vec3 → Vec3 → ℚ → Vec3) (rngs : ℕ → Rng)
       (world : Ray → Interval → Option HitRecord) (d : ℕ) (ray : Ray)
       (rec : HitRecord),
        world ray (Interval.new (FP.fin Camera.RAY_T_MIN) FP.pinf) = some rec →
        rec.material = none →
        Camera.ray_color sq sinF refr rngs world (d + 1) ray = Camera.BLACK) := by
  constructor
  · intro sq sinF refr rng m ray rec
    exact ⟨(Material.scatter sq sinF refr rng m ray rec).1,
      (Material.scatter sq sinF refr rng m ray rec).2, Prod.mk.eta.symm⟩
  · intro sq sinF refr rngs world d ray rec hw hm
    simp only [Camera.ray_color, hw, hm]

/-- Witness for C3's amended claim: a one-record scene whose hit record has
no material makes the estimator return BLACK at depth 1. -/
theorem scatter_total_and_missing_material_black_witness :
    Camera.ray_color sqF sinZ refrZ (fun _ => rng0) (fun _ _ => some recNoMat) 1 rayZ =
      Camera.BLACK :=
  scatter_total_and_missing_material_black.2 sqF sinZ refrZ (fun _ => rng0)
    (fun _ _ => some recNoMat) 0 rayZ recNoMat rfl rfl

/-- C8 is a code bug: `Sphere::new` clamps the stored `radius` with
`.max(0.0)` but computes `radius_squared` from the *unclamped* argument.
For the input radius `-1` the stored radius is `0` and the bounding box is
the degenerate point box — yet `radius_squared` is `1`, so `hit` behaves as
a radius-1 sphere: the `+z` ray from the origin hits it at `t = 4`, while
the honestly-zero-radius sphere at the same center is hit (through its
center) at `t = 5`. -/
theorem sphere_new_radius_squared_unclamped :
    (Sphere.new ⟨0, 0, 5⟩ (-1) Material.test).radius = 0 ∧
    (Sphere.new ⟨0, 0, 5⟩ (-1) Material.test).radius_squared = 1 ∧
    max (-1 : ℚ) 0 * max (-1 : ℚ) 0 = 0 ∧
    (Sphere.new ⟨0, 0, 5⟩ (-1) Material.test).bounding_box = sphP.bounding_box ∧
    ((Sphere.new ⟨0, 0, 5⟩ (-1) Material.test).hit sqF uvZ rayZ iHit).map
      (fun h : HitRecord => h.t) = some (FP.fin 4) ∧
    (sphP.hit sqF uvZ rayZ iHit).map (fun h : HitRecord => h.t) = some (FP.fin 5) := by
  refine ⟨by norm_num [Sphere.new], by norm_num [Sphere.new], by norm_num, ?_, ?_, ?_⟩
  · norm_num [Sphere.new, Sphere.bounding_box, sphP]
  · norm_num [Sphere.hit, Sphere.new, Sphere.disc, Sphere.qa, Sphere.qhb, Sphere.qc,
      Sphere.root1, Sphere.root2, Sphere.mkRec, FP.divQ, FP.toQ, sqF, uvZ, rayZ, iHit,
      Vec3.dot, Vec3.sub, Vec3.length_squared, Interval.surrounds, FP.lt,
      HitRecord.set_face_normal]
  · norm_num [Sphere.hit, Sphere.new, sphP, Sphere.disc, Sphere.qa, Sphere.qhb, Sphere.qc,
      Sphere.root1, Sphere.root2, Sphere.mkRec, FP.divQ, FP.toQ, sqF, uvZ, rayZ, iHit,
      Vec3.dot, Vec3.sub, Vec3.length_squared, Interval.surrounds, FP.lt,
      HitRecord.set_face_normal]

/-! BVH construction lemmas. -/

theorem bvhnode_bounding_box_eq (n : BvhNode) : n.bounding_box = some n.bboxOf := by
  cases n <;> rfl


theorem except_error_bind {α β : Type} (e : BvhError) (f : α → Except BvhError β) :
    (Except.error e : Except BvhError α) >>= f = Except.error e := rfl

theorem except_ok_bind {α β : Type} (a : α) (f : α → Except BvhError β) :
    (Except.ok a : Except BvhError α) >>= f = f a := rfl

theorem computeBounds_aux_missing (objs : List Object)
    (h : ∃ o ∈ objs, o.bounding_box = none) :
    ∀ st, objs.foldlM boundsStep st = .error BvhError.missingBoundingBox := by
  induction objs with
  | nil => simp at h
  | cons o os ih =>
      intro st
      rcases h with ⟨w, hw, hwb⟩
      rcases List.mem_cons.mp hw with h1 | h1
      · subst h1
        simp [List.foldlM, boundsStep, hwb, except_error_bind]
      · cases hb : o.bounding_box with
        | none => simp [List.foldlM, boundsStep, hb, except_error_bind]
        | some bb =>
            simp only [List.foldlM, boundsStep, hb]
            exact ih ⟨w, h1, hwb⟩ _

theorem computeBounds_aux_ok (objs : List Object)
    (h : ∀ o ∈ objs, o.bounding_box ≠ none) :
    ∀ st, ∃ st', objs.foldlM boundsStep st = .ok st' := by
  induction objs with
  | nil => intro st; exact ⟨st, rfl⟩
  | cons o os ih =>
      intro st
      cases hb : o.bounding_box with
      | none => exact absurd hb (h o (List.mem_cons_self o os))
      | some bb =>
          simp only [List.foldlM, boundsStep, hb]
          exact ih (fun x hx => h x (List.mem_cons_of_mem o hx)) _

theorem computeBounds_missing (objs : List Object)
    (h : ∃ o ∈ objs, o.bounding_box = none) :
    computeBounds objs = .error BvhError.missingBoundingBox :=
  computeBounds_aux_missing objs h _

theorem computeBounds_ok (objs : List Object)
    (h : ∀ o ∈ objs, o.bounding_box ≠ none) :
    ∃ st, computeBounds objs = .ok st :=
  computeBounds_aux_ok objs h _

theorem build_error_of_missing (objs : List Object) (hne : objs ≠ [])
    (h : ∃ o ∈ objs, o.bounding_box = none) :
    Bvh.build objs = .error BvhError.missingBoundingBox := by
  have hcb := computeBounds_missing objs h
  match objs with
  | [] => exact absurd rfl hne
  | [o] => rw [Bvh.build, hcb]; rfl
  | [o₁, o₂] => rw [Bvh.build, hcb]; rfl
  | a :: b :: c :: rest => rw [Bvh.build, hcb]; rfl

theorem build_ok_wf_perm (n : ℕ) :
    ∀ objs : List Object, objs.length ≤ n → objs ≠ [] →
    (∀ o ∈ objs, o.bounding_box ≠ none) →
    ∃ t, Bvh.build objs = .ok t ∧ t.wf ∧ t.objs.Perm objs := by
  induction n with
  | zero =>
      intro objs hl hne _
      cases objs with
      | nil => exact absurd rfl hne
      | cons a as => simp at hl
  | succ n ih =>
      intro objs hl hne hall
      cases objs with
      | nil => exact absurd rfl hne
      | cons o t =>
        cases t with
        | nil =>
            cases hb : o.bounding_box with
            | none => exact absurd hb (hall o (List.mem_cons_self o []))
            | some bb =>
                refine ⟨BvhNode.leaf o bb, ?_, hb, List.Perm.refl _⟩
                obtain ⟨st, hst⟩ := computeBounds_ok [o] hall
                rw [Bvh.build, hst]
                simp only [except_ok_bind, hb]
                rfl
        | cons o₂ t2 =>
          cases t2 with
          | nil =>
              obtain ⟨st, hst⟩ := computeBounds_ok [o, o₂] hall
              have hn1 : 1 ≤ n := by simp at hl; omega
              set p := if objLe (largestAxis st) o o₂ then (o, o₂) else (o₂, o) with hp
              have hp1 : p.1 = o ∨ p.1 = o₂ := by
                rw [hp]; split_ifs <;> simp
              have hp2 : p.2 = o ∨ p.2 = o₂ := by
                rw [hp]; split_ifs <;> simp
              have h1 : ∀ x ∈ [p.1], x.bounding_box ≠ none := by
                intro x hx
                simp at hx; subst hx
                rcases hp1 with h | h <;> rw [h] <;> exact hall _ (by simp)
              have h2 : ∀ x ∈ [p.2], x.bounding_box ≠ none := by
                intro x hx
                simp at hx; subst hx
                rcases hp2 with h | h <;> rw [h] <;> exact hall _ (by simp)
              obtain ⟨l, hlb, hlw, hlp⟩ := ih [p.1] (by simp; omega) (by simp) h1
              obtain ⟨r, hrb, hrw, hrp⟩ := ih [p.2] (by simp; omega) (by simp) h2
              refine ⟨BvhNode.branch l r (Aabb.surrounding l.bboxOf r.bboxOf), ?_,
                ⟨hlw, hrw, rfl⟩, ?_⟩
              · rw [Bvh.build, hst]
                simp only [except_ok_bind, ← hp]
                rw [hlb]
                simp only [except_ok_bind]
                rw [hrb]
                simp only [except_ok_bind]
                simp [mkBranch, bvhnode_bounding_box_eq]
              · have hpp : ([p.1, p.2] : List Object).Perm [o, o₂] := by
                  rw [hp]; split_ifs
                  · exact List.Perm.refl _
                  · exact List.Perm.swap o o₂ []
                exact (List.Perm.append hlp hrp).trans hpp
          | cons o₃ rest =>
              obtain ⟨st, hst⟩ := computeBounds_ok (o :: o₂ :: o₃ :: rest) hall
              set axis := largestAxis st with haxis
              set sorted := (o :: o₂ :: o₃ :: rest).insertionSort (objLe axis) with hsorted
              set mid := (o :: o₂ :: o₃ :: rest).length / 2 with hmid
              have hperm : sorted.Perm (o :: o₂ :: o₃ :: rest) := List.perm_insertionSort _ _
              have hslen : sorted.length = (o :: o₂ :: o₃ :: rest).length := hperm.length_eq
              have hlen3 : 3 ≤ (o :: o₂ :: o₃ :: rest).length := by simp
              have hmid1 : 1 ≤ mid := by rw [hmid]; simp; omega
              have hmidlt : mid < (o :: o₂ :: o₃ :: rest).length := by
                rw [hmid]; omega
              have hallS : ∀ x ∈ sorted, x.bounding_box ≠ none := fun x hx =>
                hall x (hperm.mem_iff.mp hx)
              have htlen : (sorted.take mid).length = mid := by
                rw [List.length_take, hslen]; omega
              have hdlen : (sorted.drop mid).length = sorted.length - mid :=
                List.length_drop _ _
              have hlN : (o :: o₂ :: o₃ :: rest).length ≤ n + 1 := hl
              obtain ⟨l, hlb, hlw, hlp⟩ := ih (sorted.take mid)
                (by rw [htlen]; omega)
                (by intro he; rw [he] at htlen; simp at htlen; omega)
                (fun x hx => hallS x (List.take_subset _ _ hx))
              obtain ⟨r, hrb, hrw, hrp⟩ := ih (sorted.drop mid)
                (by rw [hdlen, hslen, hmid]; omega)
                (by
                  intro he
                  have h0 : sorted.length - mid = 0 := by rw [← hdlen, he]; rfl
                  rw [hslen] at h0
                  rw [hmid] at h0
                  omega)
                (fun x hx => hallS x (List.drop_subset _ _ hx))
              refine ⟨BvhNode.branch l r (Aabb.surrounding l.bboxOf r.bboxOf), ?_,
                ⟨hlw, hrw, rfl⟩, ?_⟩
              · rw [Bvh.build, hst]
                simp only [except_ok_bind, ← haxis, ← hsorted, ← hmid]
                rw [hlb]
                simp only [except_ok_bind]
                rw [hrb]
                simp only [except_ok_bind]
                simp [mkBranch, bvhnode_bounding_box_eq]
              · have h12 : (l.objs ++ r.objs).Perm sorted := by
                  have hap := List.Perm.append hlp hrp
                  rwa [List.take_append_drop] at hap
                exact h12.trans hperm

theorem bvh_new_error_iff (objs : List Object) :
    (Bvh.new objs = .error BvhError.emptyObjectList ↔ objs = []) ∧
    (Bvh.new objs = .error BvhError.missingBoundingBox ↔
      objs ≠ [] ∧ ∃ o ∈ objs, o.bounding_box = none) ∧
    ((∃ b, Bvh.new objs = .ok b) ↔
      objs ≠ [] ∧ ∀ o ∈ objs, o.bounding_box ≠ none) := by
  by_cases hne : objs = []
  · subst hne
    refine ⟨by simp [Bvh.new], by simp [Bvh.new], by simp [Bvh.new]⟩
  · have hne' : objs.isEmpty = false := by
      cases objs with
      | nil => exact absurd rfl hne
      | cons a as => rfl
    by_cases hmiss : ∃ o ∈ objs, o.bounding_box = none
    · have hb := build_error_of_missing objs hne hmiss
      have hnew : Bvh.new objs = .error BvhError.missingBoundingBox := by
        rw [Bvh.new, if_neg (by simp [hne'])]
        rw [hb]; rfl
      refine ⟨?_, ?_, ?_⟩
      · simp [hnew, hne]
      · simp [hnew, hne, hmiss]
      · constructor
        · rintro ⟨b, hbb⟩; rw [hnew] at hbb; exact absurd hbb (by simp)
        · rintro ⟨_, hall⟩
          rcases hmiss with ⟨o, ho, hob⟩
          exact absurd hob (hall o ho)
    · push_neg at hmiss
      obtain ⟨t, hb, _, _⟩ := build_ok_wf_perm objs.length objs le_rfl hne hmiss
      have hnew : Bvh.new objs = .ok ⟨t, t.bboxOf⟩ := by
        rw [Bvh.new, if_neg (by simp [hne'])]
        rw [hb]
        simp [bvhnode_bounding_box_eq]
      refine ⟨?_, ?_, ?_⟩
      · simp [hnew, hne]
      · constructor
        · intro h; rw [hnew] at h; exact absurd h (by simp)
        · rintro ⟨_, o, ho, hob⟩; exact absurd hob (hmiss o ho)
      · exact ⟨fun _ => ⟨hne, hmiss⟩, fun _ => ⟨_, hnew⟩⟩

/-! Further FP lemmas for the slab-test and root-selection analysis. -/

theorem fp_lt_ninf (a : FP) : FP.lt a FP.ninf = false := by
  cases a <;> rfl

theorem fp_pinf_lt (a : FP) : FP.lt FP.pinf a = false := by
  cases a <;> rfl

theorem fp_lt_nan (a : FP) : FP.lt a FP.nan = false := by
  cases a <;> rfl

theorem fp_nan_lt (a : FP) : FP.lt FP.nan a = false := by
  cases a <;> rfl

theorem fp_le_nan (a : FP) : FP.le a FP.nan = false := by
  cases a <;> rfl

theorem fp_nan_le (a : FP) : FP.le FP.nan a = false := by
  cases a <;> rfl

theorem fp_lt_or_eq_of_le {a b : FP} (h : FP.le a b = true) :
    FP.lt a b = true ∨ a = b := by
  cases a <;> cases b <;> simp_all [FP.le, FP.lt]
  exact lt_or_eq_of_le h

theorem fp_lt_fin_mono {q1 q2 : ℚ} {mx : FP} (h : FP.lt (FP.fin q1) mx = false)
    (hq : q1 ≤ q2) : FP.lt (FP.fin q2) mx = false := by
  cases mx <;> simp_all [FP.lt]
  linarith

theorem fp_maxR_nan (a : FP) (h : a ≠ FP.nan) : FP.maxR a FP.nan = a := by
  unfold FP.maxR
  rw [if_neg h, if_pos rfl]

theorem fp_minR_nan (a : FP) (h : a ≠ FP.nan) : FP.minR a FP.nan = a := by
  unfold FP.minR
  rw [if_neg h, if_pos rfl]

theorem fp_ne_nan_of_le_fin {a : FP} {q : ℚ} (h : FP.le a (FP.fin q) = true) :
    a ≠ FP.nan := by
  intro he; subst he; rw [fp_nan_le] at h; exact Bool.false_ne_true h

theorem fp_ne_nan_of_fin_le {a : FP} {q : ℚ} (h : FP.le (FP.fin q) a = true) :
    a ≠ FP.nan := by
  intro he; subst he; rw [fp_le_nan] at h; exact Bool.false_ne_true h

/-- Updating the running lower bound with an entry that is NaN or below `t`
keeps it at or below `t`. -/
theorem fp_upd_lo_le {tm e : FP} {t : ℚ} (htm : FP.le tm (FP.fin t) = true)
    (he : e = FP.nan ∨ FP.le e (FP.fin t) = true) :
    FP.le (FP.maxR tm e) (FP.fin t) = true := by
  rcases he with h | h
  · subst h; rw [fp_maxR_nan tm (fp_ne_nan_of_le_fin htm)]; exact htm
  · exact fp_maxR_le htm h

theorem fp_upd_lo_lt {tm e : FP} {t : ℚ} (htm : FP.lt tm (FP.fin t) = true)
    (he : e = FP.nan ∨ FP.lt e (FP.fin t) = true) :
    FP.lt (FP.maxR tm e) (FP.fin t) = true := by
  rcases he with h | h
  · subst h
    rw [fp_maxR_nan tm (fp_ne_nan_of_le_fin (fp_le_of_lt htm))]; exact htm
  · exact fp_maxR_lt htm h

theorem fp_upd_hi_le {tM x : FP} {t : ℚ} (htM : FP.le (FP.fin t) tM = true)
    (hx : x = FP.nan ∨ FP.le (FP.fin t) x = true) :
    FP.le (FP.fin t) (FP.minR tM x) = true := by
  rcases hx with h | h
  · subst h; rw [fp_minR_nan tM (fp_ne_nan_of_fin_le htM)]; exact htM
  · exact fp_le_minR htM h

theorem fp_upd_hi_lt {tM x : FP} {t : ℚ} (htM : FP.lt (FP.fin t) tM = true)
    (hx : x = FP.nan ∨ FP.lt (FP.fin t) x = true) :
    FP.lt (FP.fin t) (FP.minR tM x) = true := by
  rcases hx with h | h
  · subst h
    rw [fp_minR_nan tM (fp_ne_nan_of_fin_le (fp_le_of_lt htM))]; exact htM
  · exact fp_lt_minR htM h

theorem ray_atP_comp (ray : Ray) (t : ℚ) (axis : Fin 3) :
    (ray.atP t).comp axis = ray.origin.comp axis + t * ray.direction.comp axis := by
  fin_cases axis <;> simp [Ray.atP, Vec3.add, Vec3.smul, Vec3.comp]

/-! The candidate characterization of sphere intersection. -/

theorem qa_nonneg (s : Sphere) (ray : Ray) : 0 ≤ s.qa ray := by
  unfold Sphere.qa Vec3.length_squared
  nlinarith [mul_self_nonneg ray.direction.x, mul_self_nonneg ray.direction.y,
    mul_self_nonneg ray.direction.z]

theorem dir_zero_of_qa_zero (s : Sphere) (ray : Ray) (h : s.qa ray = 0) :
    ray.direction = ⟨0, 0, 0⟩ :=
  Vec3.length_squared_eq_zero.mp h

theorem qhb_zero_of_qa_zero (s : Sphere) (ray : Ray) (h : s.qa ray = 0) :
    s.qhb ray = 0 := by
  unfold Sphere.qhb
  rw [dir_zero_of_qa_zero s ray h]
  simp [Vec3.dot]

/-- The candidate characterization: on `(mn, mx)` the sphere test returns
exactly its lower-bound candidate filtered by `< mx`. -/
theorem sphere_hit_char (sq : ℚ → ℚ) (uvF : Vec3 → ℚ × ℚ) (s : Sphere) (ray : Ray)
    (mn mx : FP) (hsd : 0 ≤ s.disc ray → 0 ≤ sq (s.disc ray)) :
    s.hit sq uvF ray ⟨mn, mx⟩ =
      (s.cand sq ray mn).bind fun q =>
        if FP.lt (FP.fin q) mx = true then some (s.mkRec uvF ray q) else none := by
  by_cases hD : s.disc ray < 0
  · simp [Sphere.hit, Sphere.cand, hD]
  · push_neg at hD
    have hsd' := hsd hD
    have hhit : s.hit sq uvF ray ⟨mn, mx⟩ =
        (if (Interval.mk mn mx).surrounds (s.root1 sq ray) = true then (s.root1 sq ray).toQ
         else if (Interval.mk mn mx).surrounds (s.root2 sq ray) = true then (s.root2 sq ray).toQ
         else none).map (fun root => s.mkRec uvF ray root) := by
      unfold Sphere.hit
      rw [if_neg (not_lt.mpr hD)]
    have hcand : s.cand sq ray mn =
        (if FP.lt mn (s.root1 sq ray) = true then (s.root1 sq ray).toQ
         else if FP.lt mn (s.root2 sq ray) = true then (s.root2 sq ray).toQ
         else none) := by
      unfold Sphere.cand
      rw [if_neg (not_lt.mpr hD)]
    by_cases ha : s.qa ray = 0
    · have hb0 : s.qhb ray = 0 := qhb_zero_of_qa_zero s ray ha
      by_cases h0 : sq (s.disc ray) = 0
      · have hr1 : s.root1 sq ray = FP.nan := by
          unfold Sphere.root1 FP.divQ
          rw [ha, hb0, h0]
          norm_num
        have hr2 : s.root2 sq ray = FP.nan := by
          unfold Sphere.root2 FP.divQ
          rw [ha, hb0, h0]
          norm_num
        rw [hhit, hcand, hr1, hr2]
        simp [Interval.surrounds, fp_lt_nan, fp_nan_lt]
      · have hpos : 0 < sq (s.disc ray) := lt_of_le_of_ne hsd' (Ne.symm h0)
        have hr1 : s.root1 sq ray = FP.ninf := by
          unfold Sphere.root1 FP.divQ
          rw [ha, hb0]
          rw [if_pos rfl, if_neg (by linarith), if_neg (by linarith)]
        have hr2 : s.root2 sq ray = FP.pinf := by
          unfold Sphere.root2 FP.divQ
          rw [ha, hb0]
          rw [if_pos rfl, if_neg (by linarith), if_pos (by linarith)]
        rw [hhit, hcand, hr1, hr2]
        simp [Interval.surrounds, fp_lt_ninf, fp_pinf_lt, FP.toQ]
    · have hapos : 0 < s.qa ray := lt_of_le_of_ne (qa_nonneg s ray) (Ne.symm ha)
      have hr1 : s.root1 sq ray =
          FP.fin ((-s.qhb ray - sq (s.disc ray)) / s.qa ray) := by
        unfold Sphere.root1 FP.divQ
        rw [if_neg ha]
      have hr2 : s.root2 sq ray =
          FP.fin ((-s.qhb ray + sq (s.disc ray)) / s.qa ray) := by
        unfold Sphere.root2 FP.divQ
        rw [if_neg ha]
      set q1 := (-s.qhb ray - sq (s.disc ray)) / s.qa ray with hq1
      set q2 := (-s.qhb ray + sq (s.disc ray)) / s.qa ray with hq2
      have h12 : q1 ≤ q2 := by
        rw [hq1, hq2, div_le_div_iff hapos hapos]
        nlinarith
      rw [hhit, hcand, hr1, hr2]
      by_cases hm1 : FP.lt mn (FP.fin q1) = true
      · by_cases hx1 : FP.lt (FP.fin q1) mx = true
        · simp [Interval.surrounds, hm1, hx1, FP.toQ]
        · rw [Bool.not_eq_true] at hx1
          have hx2 : FP.lt (FP.fin q2) mx = false := fp_lt_fin_mono hx1 h12
          simp [Interval.surrounds, hm1, hx1, hx2, FP.toQ]
      · rw [Bool.not_eq_true] at hm1
        by_cases hm2 : FP.lt mn (FP.fin q2) = true
        · by_cases hx2 : FP.lt (FP.fin q2) mx = true
          · simp [Interval.surrounds, hm1, hm2, hx2, FP.toQ]
          · rw [Bool.not_eq_true] at hx2
            simp [Interval.surrounds, hm1, hm2, hx2, FP.toQ]
        · rw [Bool.not_eq_true] at hm2
          simp [Interval.surrounds, hm1, hm2, FP.toQ]

theorem at_sub_center_lsq (ray : Ray) (c : Point3) (q : ℚ) :
    ((ray.atP q).sub c).length_squared =
      (ray.origin.sub c).length_squared + 2 * q * ((ray.origin.sub c).dot ray.direction)
        + q * q * ray.direction.length_squared := by
  simp [Ray.atP, Vec3.add, Vec3.sub, Vec3.smul, Vec3.dot, Vec3.length_squared]
  ring

/-- A successful candidate clears the lower bound strictly and its hit point
lies exactly on the sphere. -/
theorem sphere_cand_mem (sq : ℚ → ℚ) (s : Sphere) (ray : Ray) (mn : FP) (q : ℚ)
    (hsq : sqrtGoodAt sq (s.disc ray))
    (hrs : s.radius_squared = s.radius * s.radius)
    (hc : s.cand sq ray mn = some q) :
    FP.lt mn (FP.fin q) = true ∧
    ((ray.atP q).sub s.center).length_squared = s.radius * s.radius := by
  unfold Sphere.cand at hc
  by_cases hD : s.disc ray < 0
  · rw [if_pos hD] at hc; exact absurd hc (by simp)
  · push_neg at hD
    rw [if_neg (not_lt.mpr hD)] at hc
    obtain ⟨hsd0, hsd2⟩ := hsq hD
    have ha : s.qa ray ≠ 0 := by
      intro ha0
      have hb0 : s.qhb ray = 0 := qhb_zero_of_qa_zero s ray ha0
      by_cases h0 : sq (s.disc ray) = 0
      · have hr1 : s.root1 sq ray = FP.nan := by
          unfold Sphere.root1 FP.divQ
          rw [ha0, hb0, h0]; norm_num
        have hr2 : s.root2 sq ray = FP.nan := by
          unfold Sphere.root2 FP.divQ
          rw [ha0, hb0, h0]; norm_num
        rw [hr1, hr2, fp_lt_nan] at hc
        simp at hc
      · have hpos : 0 < sq (s.disc ray) := lt_of_le_of_ne hsd0 (Ne.symm h0)
        have hr1 : s.root1 sq ray = FP.ninf := by
          unfold Sphere.root1 FP.divQ
          rw [ha0, hb0]
          rw [if_pos rfl, if_neg (by linarith), if_neg (by linarith)]
        have hr2 : s.root2 sq ray = FP.pinf := by
          unfold Sphere.root2 FP.divQ
          rw [ha0, hb0]
          rw [if_pos rfl, if_neg (by linarith), if_pos (by linarith)]
        rw [hr1, hr2, fp_lt_ninf] at hc
        simp [FP.toQ] at hc
    have hr1 : s.root1 sq ray = FP.fin ((-s.qhb ray - sq (s.disc ray)) / s.qa ray) := by
      unfold Sphere.root1 FP.divQ; rw [if_neg ha]
    have hr2 : s.root2 sq ray = FP.fin ((-s.qhb ray + sq (s.disc ray)) / s.qa ray) := by
      unfold Sphere.root2 FP.divQ; rw [if_neg ha]
    rw [hr1, hr2] at hc
    have hquad : ∀ qq : ℚ, s.qa ray * qq = -s.qhb ray - sq (s.disc ray) ∨
        s.qa ray * qq = -s.qhb ray + sq (s.disc ray) →
        ((ray.atP qq).sub s.center).length_squared = s.radius * s.radius := by
      intro qq hqa
      have hzero : s.qa ray * (s.qa ray * qq * qq + 2 * s.qhb ray * qq + s.qc ray) = 0 := by
        have hDdef : s.disc ray = s.qhb ray * s.qhb ray - s.qa ray * s.qc ray := rfl
        rcases hqa with h | h <;> nlinarith [h, hsd2, hDdef]
      have hq0 : s.qa ray * qq * qq + 2 * s.qhb ray * qq + s.qc ray = 0 :=
        (mul_eq_zero.mp hzero).resolve_left ha
      have hqcdef : s.qc ray = (ray.origin.sub s.center).length_squared - s.radius_squared := rfl
      rw [at_sub_center_lsq]
      have hqa' : s.qhb ray = (ray.origin.sub s.center).dot ray.direction := rfl
      have hqa'' : s.qa ray = ray.direction.length_squared := rfl
      rw [← hqa', ← hqa'']
      rw [hqcdef, hrs] at hq0
      nlinarith [hq0]
    by_cases hm1 : FP.lt mn (FP.fin ((-s.qhb ray - sq (s.disc ray)) / s.qa ray)) = true
    · rw [if_pos hm1] at hc
      simp [FP.toQ] at hc
      subst hc
      refine ⟨hm1, hquad _ (Or.inl ?_)⟩
      field_simp
    · rw [if_neg hm1] at hc
      by_cases hm2 : FP.lt mn (FP.fin ((-s.qhb ray + sq (s.disc ray)) / s.qa ray)) = true
      · rw [if_pos hm2] at hc
        simp [FP.toQ] at hc
        subst hc
        refine ⟨hm2, hquad _ (Or.inr ?_)⟩
        field_simp
      · rw [if_neg hm2] at hc
        exact absurd hc (by simp)

theorem sphere_bbox_lo (s : Sphere) (axis : Fin 3) :
    s.bounding_box.lo axis = FP.fin (s.center.comp axis - s.radius) := by
  fin_cases axis <;> rfl

theorem sphere_bbox_hi (s : Sphere) (axis : Fin 3) :
    s.bounding_box.hi axis = FP.fin (s.center.comp axis + s.radius) := by
  fin_cases axis <;> rfl

/-- Touching a face of the sphere's box forces the point to the face center:
strictly interior on the two other axes. -/
theorem face_interior_xyz (cx cy cz px py pz r : ℚ) (hr : 0 < r)
    (h : (px - cx) * (px - cx) + (py - cy) * (py - cy) + (pz - cz) * (pz - cz) = r * r)
    (hb : px = cx - r ∨ px = cx + r) :
    cy - r < py ∧ py < cy + r ∧ cz - r < pz ∧ pz < cz + r := by
  have hdx : (px - cx) * (px - cx) = r * r := by
    rcases hb with h1 | h1 <;> rw [h1] <;> ring
  have hy : py - cy = 0 := by
    nlinarith [mul_self_nonneg (py - cy), mul_self_nonneg (pz - cz)]
  have hz : pz - cz = 0 := by
    nlinarith [mul_self_nonneg (py - cy), mul_self_nonneg (pz - cz)]
  exact ⟨by linarith, by linarith, by linarith, by linarith⟩

/-- A point on a positive-radius sphere lies in the sphere's box on every
axis, and if it touches a face of that box it is strictly interior on the
two other axes. -/
theorem sphere_point_box (s : Sphere) (p : Vec3) (hr : 0 < s.radius)
    (hp : (p.sub s.center).length_squared = s.radius * s.radius) :
    (∀ axis : Fin 3, s.center.comp axis - s.radius ≤ p.comp axis ∧
             p.comp axis ≤ s.center.comp axis + s.radius) ∧
    (∀ a1 : Fin 3,
      (p.comp a1 = s.center.comp a1 - s.radius ∨ p.comp a1 = s.center.comp a1 + s.radius) →
      ∀ a2 : Fin 3, a2 ≠ a1 → s.center.comp a2 - s.radius < p.comp a2 ∧
                        p.comp a2 < s.center.comp a2 + s.radius) := by
  have hexp : (p.x - s.center.x) * (p.x - s.center.x) + (p.y - s.center.y) * (p.y - s.center.y)
      + (p.z - s.center.z) * (p.z - s.center.z) = s.radius * s.radius := by
    have h2 := hp
    simp [Vec3.sub, Vec3.length_squared] at h2
    linarith [h2]
  constructor
  · intro axis
    fin_cases axis <;> simp only [Vec3.comp] <;> constructor <;>
      nlinarith [mul_self_nonneg (p.x - s.center.x), mul_self_nonneg (p.y - s.center.y),
        mul_self_nonneg (p.z - s.center.z), hexp]
  · intro a1 h1 a2 h2
    fin_cases a1
    · have hface := face_interior_xyz s.center.x s.center.y s.center.z p.x p.y p.z
        s.radius hr hexp (by simpa [Vec3.comp] using h1)
      fin_cases a2
      · exact absurd rfl h2
      · exact ⟨by simp only [Vec3.comp]; linarith [hface.1],
               by simp only [Vec3.comp]; linarith [hface.2.1]⟩
      · exact ⟨by simp only [Vec3.comp]; linarith [hface.2.2.1],
               by simp only [Vec3.comp]; linarith [hface.2.2.2]⟩
    · have hface := face_interior_xyz s.center.y s.center.x s.center.z p.y p.x p.z
        s.radius hr (by linarith [hexp]) (by simpa [Vec3.comp] using h1)
      fin_cases a2
      · exact ⟨by simp only [Vec3.comp]; linarith [hface.1],
               by simp only [Vec3.comp]; linarith [hface.2.1]⟩
      · exact absurd rfl h2
      · exact ⟨by simp only [Vec3.comp]; linarith [hface.2.2.1],
               by simp only [Vec3.comp]; linarith [hface.2.2.2]⟩
    · have hface := face_interior_xyz s.center.z s.center.x s.center.y p.z p.x p.y
        s.radius hr (by linarith [hexp]) (by simpa [Vec3.comp] using h1)
      fin_cases a2
      · exact ⟨by simp only [Vec3.comp]; linarith [hface.1],
               by simp only [Vec3.comp]; linarith [hface.2.1]⟩
      · exact ⟨by simp only [Vec3.comp]; linarith [hface.2.2.1],
               by simp only [Vec3.comp]; linarith [hface.2.2.2]⟩
      · exact absurd rfl h2

/-- Lift the sphere-box geometry through box containment: a point on a
positive-radius sphere whose box lies inside `B` satisfies the membership,
width and at-most-one-face conditions of the slab test on `B`. -/
theorem sphere_in_box_hyps (s : Sphere) (B : Aabb) (p : Vec3)
    (hr : 0 < s.radius)
    (hp : (p.sub s.center).length_squared = s.radius * s.radius)
    (hsub : Aabb.subset s.bounding_box B) :
    (∀ axis : Fin 3, FP.le (B.lo axis) (FP.fin (p.comp axis)) = true ∧
             FP.le (FP.fin (p.comp axis)) (B.hi axis) = true) ∧
    (∀ axis : Fin 3, FP.lt (B.lo axis) (B.hi axis) = true) ∧
    (∀ a1 : Fin 3, (B.lo a1 = FP.fin (p.comp a1) ∨ B.hi a1 = FP.fin (p.comp a1)) →
      ∀ a2 : Fin 3, a2 ≠ a1 → FP.lt (B.lo a2) (FP.fin (p.comp a2)) = true ∧
                        FP.lt (FP.fin (p.comp a2)) (B.hi a2) = true) := by
  obtain ⟨hmem, hface⟩ := sphere_point_box s p hr hp
  have hloS : ∀ axis, FP.le (B.lo axis) (FP.fin (s.center.comp axis - s.radius)) = true := by
    intro axis
    have := (hsub axis).1
    rwa [sphere_bbox_lo] at this
  have hhiS : ∀ axis, FP.le (FP.fin (s.center.comp axis + s.radius)) (B.hi axis) = true := by
    intro axis
    have := (hsub axis).2
    rwa [sphere_bbox_hi] at this
  have hmemB : ∀ axis : Fin 3, FP.le (B.lo axis) (FP.fin (p.comp axis)) = true ∧
      FP.le (FP.fin (p.comp axis)) (B.hi axis) = true := by
    intro axis
    exact ⟨fp_le_trans (hloS axis) (fp_le_fin_fin.mpr (hmem axis).1),
           fp_le_trans (fp_le_fin_fin.mpr (hmem axis).2) (hhiS axis)⟩
  refine ⟨hmemB, ?_, ?_⟩
  · intro axis
    have hw : s.center.comp axis - s.radius < s.center.comp axis + s.radius := by linarith
    exact fp_lt_of_le_of_lt (hloS axis)
      (fp_lt_of_lt_of_le (fp_lt_fin_fin.mpr hw) (hhiS axis))
  · intro a1 h1 a2 h2
    have hb : p.comp a1 = s.center.comp a1 - s.radius ∨
        p.comp a1 = s.center.comp a1 + s.radius := by
      rcases h1 with h | h
      · left
        have hle : FP.le (FP.fin (p.comp a1)) (FP.fin (s.center.comp a1 - s.radius)) = true := by
          rw [← h]; exact hloS a1
        have := fp_le_fin_fin.mp hle
        linarith [(hmem a1).1]
      · right
        have hle : FP.le (FP.fin (s.center.comp a1 + s.radius)) (FP.fin (p.comp a1)) = true := by
          rw [← h]; exact hhiS a1
        have := fp_le_fin_fin.mp hle
        linarith [(hmem a1).2]
    have hstr := hface a1 hb a2 h2
    exact ⟨fp_lt_of_le_of_lt (hloS a2) (fp_lt_fin_fin.mpr hstr.1),
           fp_lt_of_lt_of_le (fp_lt_fin_fin.mpr hstr.2) (hhiS a2)⟩

/-- The per-axis entry/exit pair of the slab test, after the negative-inverse
swap, sandwiches the parameter `t` of any point of the box on that axis:
entry at or below `t`, exit at or above `t` (NaN when a zero direction sits
exactly on a face, which the NaN-ignoring min/max discard), strictly when the
point is strictly inside the slab, and never both exactly `t`. -/
theorem slab_pair_bounds (b : Aabb) (ray : Ray) (axis : Fin 3) (t : ℚ)
    (hlo : FP.le (b.lo axis) (FP.fin ((ray.atP t).comp axis)) = true)
    (hhi : FP.le (FP.fin ((ray.atP t).comp axis)) (b.hi axis) = true)
    (hw : FP.lt (b.lo axis) (b.hi axis) = true) :
    ∃ e x,
      (if FP.lt (FP.invQ (ray.direction.comp axis)) (FP.fin 0) = true
       then (FP.mul (FP.subQ (b.hi axis) (ray.origin.comp axis))
               (FP.invQ (ray.direction.comp axis)),
             FP.mul (FP.subQ (b.lo axis) (ray.origin.comp axis))
               (FP.invQ (ray.direction.comp axis)))
       else (FP.mul (FP.subQ (b.lo axis) (ray.origin.comp axis))
               (FP.invQ (ray.direction.comp axis)),
             FP.mul (FP.subQ (b.hi axis) (ray.origin.comp axis))
               (FP.invQ (ray.direction.comp axis)))) = (e, x) ∧
      (e = FP.nan ∨ FP.le e (FP.fin t) = true) ∧
      (x = FP.nan ∨ FP.le (FP.fin t) x = true) ∧
      (FP.lt (b.lo axis) (FP.fin ((ray.atP t).comp axis)) = true →
        FP.lt (FP.fin ((ray.atP t).comp axis)) (b.hi axis) = true →
        (e = FP.nan ∨ FP.lt e (FP.fin t) = true) ∧
        (x = FP.nan ∨ FP.lt (FP.fin t) x = true)) ∧
      ¬(e = FP.fin t ∧ x = FP.fin t) := by
  have hpa : (ray.atP t).comp axis =
      ray.origin.comp axis + t * ray.direction.comp axis := ray_atP_comp ray t axis
  set d := ray.direction.comp axis with hdd
  set o := ray.origin.comp axis with hoo
  rw [hpa] at hlo hhi ⊢
  rcases lt_trichotomy d 0 with hdlt | hdeq | hdgt
  · -- negative direction: swap, entry from hi, exit from lo
    have hinv : FP.invQ d = FP.fin (1 / d) := by
      unfold FP.invQ; rw [if_neg (ne_of_lt hdlt)]
    have hinvneg : 1 / d < 0 := by
      exact one_div_neg.mpr hdlt
    have hswap : FP.lt (FP.fin (1 / d)) (FP.fin 0) = true := fp_lt_fin_fin.mpr hinvneg
    rw [hinv, hswap, if_pos rfl]
    -- entry facts (from hi)
    have hE : ∃ e, FP.mul (FP.subQ (b.hi axis) o) (FP.fin (1 / d)) = e ∧
        FP.le e (FP.fin t) = true ∧
        (FP.lt (FP.fin (o + t * d)) (b.hi axis) = true → FP.lt e (FP.fin t) = true) ∧
        (e = FP.fin t → b.hi axis = FP.fin (o + t * d)) := by
      cases hc : b.hi axis with
      | fin h =>
          rw [hc, fp_le_fin_fin] at hhi
          refine ⟨FP.fin ((h - o) * (1 / d)), by simp [FP.subQ, FP.mul], ?_, ?_, ?_⟩
          · rw [fp_le_fin_fin, mul_one_div]
            rw [div_le_iff_of_neg hdlt]
            linarith
          · intro hs
            rw [fp_lt_fin_fin] at hs
            rw [fp_lt_fin_fin, mul_one_div]
            rw [div_lt_iff_of_neg hdlt]
            linarith
          · intro he
            have : (h - o) * (1 / d) = t := by
              have := congrArg (fun z => match z with | FP.fin q => q | _ => 0) he
              simpa using this
            rw [mul_one_div, div_eq_iff (ne_of_lt hdlt)] at this
            congr 1
            linarith
      | pinf =>
          refine ⟨FP.ninf, ?_, by rfl, fun _ => by rfl, by simp⟩
          simp only [FP.subQ, FP.mul]
          rw [if_neg (by linarith), if_pos (by linarith)]
      | ninf => rw [hc] at hhi; simp [FP.le] at hhi
      | nan => rw [hc] at hhi; simp [FP.le] at hhi
    have hX : ∃ x, FP.mul (FP.subQ (b.lo axis) o) (FP.fin (1 / d)) = x ∧
        FP.le (FP.fin t) x = true ∧
        (FP.lt (b.lo axis) (FP.fin (o + t * d)) = true → FP.lt (FP.fin t) x = true) ∧
        (x = FP.fin t → b.lo axis = FP.fin (o + t * d)) := by
      cases hc : b.lo axis with
      | fin l =>
          rw [hc, fp_le_fin_fin] at hlo
          refine ⟨FP.fin ((l - o) * (1 / d)), by simp [FP.subQ, FP.mul], ?_, ?_, ?_⟩
          · rw [fp_le_fin_fin, mul_one_div]
            rw [le_div_iff_of_neg hdlt]
            linarith
          · intro hs
            rw [fp_lt_fin_fin] at hs
            rw [fp_lt_fin_fin, mul_one_div]
            rw [lt_div_iff_of_neg hdlt]
            linarith
          · intro hx
            have : (l - o) * (1 / d) = t := by
              have := congrArg (fun z => match z with | FP.fin q => q | _ => 0) hx
              simpa using this
            rw [mul_one_div, div_eq_iff (ne_of_lt hdlt)] at this
            congr 1
            linarith
      | ninf =>
          refine ⟨FP.pinf, ?_, by rfl, fun _ => by rfl, by simp⟩
          simp only [FP.subQ, FP.mul]
          rw [if_neg (by linarith), if_pos (by linarith)]
      | pinf => rw [hc] at hlo; simp [FP.le] at hlo
      | nan => rw [hc] at hlo; simp [FP.le] at hlo
    obtain ⟨e, hee, he1, he2, he3⟩ := hE
    obtain ⟨x, hxx, hx1, hx2, hx3⟩ := hX
    refine ⟨e, x, by rw [hee, hxx], Or.inr he1, Or.inr hx1,
      fun hs1 hs2 => ⟨Or.inr (he2 hs2), Or.inr (hx2 hs1)⟩, ?_⟩
    rintro ⟨het, hxt⟩
    rw [he3 het, hx3 hxt, fp_lt_irr] at hw
    exact Bool.false_ne_true hw
  · -- zero direction: infinite inverse, inert bounds
    have hinv : FP.invQ d = FP.pinf := by
      unfold FP.invQ; rw [if_pos hdeq]
    have hswap : FP.lt FP.pinf (FP.fin 0) = false := rfl
    rw [hinv, hswap]
    simp only [Bool.false_eq_true, if_false]
    rw [hdeq] at hlo hhi
    simp only [mul_zero, add_zero] at hlo hhi
    have hE : ∃ e, FP.mul (FP.subQ (b.lo axis) o) FP.pinf = e ∧
        (e = FP.nan ∨ FP.le e (FP.fin t) = true) ∧
        (FP.lt (b.lo axis) (FP.fin o) = true → (e = FP.nan ∨ FP.lt e (FP.fin t) = true)) ∧
        e ≠ FP.fin t := by
      cases hc : b.lo axis with
      | fin l =>
          rw [hc, fp_le_fin_fin] at hlo
          rcases lt_or_eq_of_le hlo with hlt | heq
          · refine ⟨FP.ninf, ?_, Or.inr (by rfl), fun _ => Or.inr (by rfl), by simp⟩
            simp [FP.subQ, FP.mul, not_lt.mpr (le_of_lt (by linarith : l - o < 0)),
              (by linarith : l - o < 0)]
          · refine ⟨FP.nan, ?_, Or.inl rfl, fun _ => Or.inl rfl, by simp⟩
            subst heq
            simp [FP.subQ, FP.mul]
      | ninf =>
          exact ⟨FP.ninf, by simp [FP.subQ, FP.mul], Or.inr (by rfl),
            fun _ => Or.inr (by rfl), by simp⟩
      | pinf => rw [hc] at hlo; simp [FP.le] at hlo
      | nan => rw [hc] at hlo; simp [FP.le] at hlo
    have hX : ∃ x, FP.mul (FP.subQ (b.hi axis) o) FP.pinf = x ∧
        (x = FP.nan ∨ FP.le (FP.fin t) x = true) ∧
        (FP.lt (FP.fin o) (b.hi axis) = true → (x = FP.nan ∨ FP.lt (FP.fin t) x = true)) ∧
        x ≠ FP.fin t := by
      cases hc : b.hi axis with
      | fin h =>
          rw [hc, fp_le_fin_fin] at hhi
          rcases lt_or_eq_of_le hhi with hlt | heq
          · refine ⟨FP.pinf, ?_, Or.inr (by rfl), fun _ => Or.inr (by rfl), by simp⟩
            simp [FP.subQ, FP.mul, (by linarith : (0:ℚ) < h - o)]
          · refine ⟨FP.nan, ?_, Or.inl rfl, fun _ => Or.inl rfl, by simp⟩
            rw [← heq]
            simp [FP.subQ, FP.mul]
      | pinf =>
          exact ⟨FP.pinf, by simp [FP.subQ, FP.mul], Or.inr (by rfl),
            fun _ => Or.inr (by rfl), by simp⟩
      | ninf => rw [hc] at hhi; simp [FP.le] at hhi
      | nan => rw [hc] at hhi; simp [FP.le] at hhi
    obtain ⟨e, hee, he1, he2, he3⟩ := hE
    obtain ⟨x, hxx, hx1, hx2, hx3⟩ := hX
    refine ⟨e, x, by rw [hee, hxx], he1, hx1, ?_, ?_⟩
    · intro hs1 hs2
      rw [hdeq] at hs1 hs2
      simp only [mul_zero, add_zero] at hs1 hs2
      exact ⟨he2 hs1, hx2 hs2⟩
    · rintro ⟨het, _⟩
      exact he3 het
  · -- positive direction: no swap
    have hinv : FP.invQ d = FP.fin (1 / d) := by
      unfold FP.invQ; rw [if_neg (ne_of_gt hdgt)]
    have hinvpos : 0 < 1 / d := by positivity
    have hswap : FP.lt (FP.fin (1 / d)) (FP.fin 0) = false := by
      simp [FP.lt]; linarith
    rw [hinv, hswap]
    simp only [Bool.false_eq_true, if_false]
    have hE : ∃ e, FP.mul (FP.subQ (b.lo axis) o) (FP.fin (1 / d)) = e ∧
        FP.le e (FP.fin t) = true ∧
        (FP.lt (b.lo axis) (FP.fin (o + t * d)) = true → FP.lt e (FP.fin t) = true) ∧
        (e = FP.fin t → b.lo axis = FP.fin (o + t * d)) := by
      cases hc : b.lo axis with
      | fin l =>
          rw [hc, fp_le_fin_fin] at hlo
          refine ⟨FP.fin ((l - o) * (1 / d)), by simp [FP.subQ, FP.mul], ?_, ?_, ?_⟩
          · rw [fp_le_fin_fin, mul_one_div]
            rw [div_le_iff hdgt]
            linarith
          · intro hs
            rw [fp_lt_fin_fin] at hs
            rw [fp_lt_fin_fin, mul_one_div]
            rw [div_lt_iff hdgt]
            linarith
          · intro he
            have : (l - o) * (1 / d) = t := by
              have := congrArg (fun z => match z with | FP.fin q => q | _ => 0) he
              simpa using this
            rw [mul_one_div, div_eq_iff (ne_of_gt hdgt)] at this
            congr 1
            linarith
      | ninf =>
          refine ⟨FP.ninf, ?_, by rfl, fun _ => by rfl, by simp⟩
          simp only [FP.subQ, FP.mul]
          rw [if_pos (by linarith)]
      | pinf => rw [hc] at hlo; simp [FP.le] at hlo
      | nan => rw [hc] at hlo; simp [FP.le] at hlo
    have hX : ∃ x, FP.mul (FP.subQ (b.hi axis) o) (FP.fin (1 / d)) = x ∧
        FP.le (FP.fin t) x = true ∧
        (FP.lt (FP.fin (o + t * d)) (b.hi axis) = true → FP.lt (FP.fin t) x = true) ∧
        (x = FP.fin t → b.hi axis = FP.fin (o + t * d)) := by
      cases hc : b.hi axis with
      | fin h =>
          rw [hc, fp_le_fin_fin] at hhi
          refine ⟨FP.fin ((h - o) * (1 / d)), by simp [FP.subQ, FP.mul], ?_, ?_, ?_⟩
          · rw [fp_le_fin_fin, mul_one_div]
            rw [le_div_iff hdgt]
            linarith
          · intro hs
            rw [fp_lt_fin_fin] at hs
            rw [fp_lt_fin_fin, mul_one_div]
            rw [lt_div_iff hdgt]
            linarith
          · intro hx
            have : (h - o) * (1 / d) = t := by
              have := congrArg (fun z => match z with | FP.fin q => q | _ => 0) hx
              simpa using this
            rw [mul_one_div, div_eq_iff (ne_of_gt hdgt)] at this
            congr 1
            linarith
      | pinf =>
          refine ⟨FP.pinf, ?_, by rfl, fun _ => by rfl, by simp⟩
          simp only [FP.subQ, FP.mul]
          rw [if_pos (by linarith)]
      | ninf => rw [hc] at hhi; simp [FP.le] at hhi
      | nan => rw [hc] at hhi; simp [FP.le] at hhi
    obtain ⟨e, hee, he1, he2, he3⟩ := hE
    obtain ⟨x, hxx, hx1, hx2, hx3⟩ := hX
    refine ⟨e, x, by rw [hee, hxx], Or.inr he1, Or.inr hx1,
      fun hs1 hs2 => ⟨Or.inr (he2 hs1), Or.inr (hx2 hs2)⟩, ?_⟩
    rintro ⟨het, hxt⟩
    rw [he3 het, hx3 hxt, fp_lt_irr] at hw
    exact Bool.false_ne_true hw

theorem aabb_lo_def (b : Aabb) (axis : Fin 3) : (b.axis_interval axis).min = b.lo axis := rfl

theorem aabb_hi_def (b : Aabb) (axis : Fin 3) : (b.axis_interval axis).max = b.hi axis := rfl

/-- One slab step on an axis that merely contains the point (possibly on a
face): from a strictly sandwiching running interval it produces a weakly
sandwiching one, never rejecting. -/
theorem slabAxis_sound_bound (b : Aabb) (ray : Ray) (axis : Fin 3) (t : ℚ)
    (tm tM : FP)
    (hlo : FP.le (b.lo axis) (FP.fin ((ray.atP t).comp axis)) = true)
    (hhi : FP.le (FP.fin ((ray.atP t).comp axis)) (b.hi axis) = true)
    (hw : FP.lt (b.lo axis) (b.hi axis) = true)
    (htm : FP.lt tm (FP.fin t) = true) (htM : FP.lt (FP.fin t) tM = true) :
    ∃ tm' tM', Aabb.slabAxis b ray axis tm tM = some (tm', tM') ∧
      FP.le tm' (FP.fin t) = true ∧ FP.le (FP.fin t) tM' = true ∧
      (FP.lt tm' (FP.fin t) = true ∨ FP.lt (FP.fin t) tM' = true) := by
  obtain ⟨e, x, hpair, he1, hx1, _, hnb⟩ := slab_pair_bounds b ray axis t hlo hhi hw
  have htmle : FP.le tm (FP.fin t) = true := fp_le_of_lt htm
  have htMle : FP.le (FP.fin t) tM = true := fp_le_of_lt htM
  have hle1 : FP.le (FP.maxR tm e) (FP.fin t) = true := fp_upd_lo_le htmle he1
  have hle2 : FP.le (FP.fin t) (FP.minR tM x) = true := fp_upd_hi_le htMle hx1
  have hdisj : FP.lt (FP.maxR tm e) (FP.fin t) = true ∨
      FP.lt (FP.fin t) (FP.minR tM x) = true := by
    by_cases he : e = FP.fin t
    · right
      rcases hx1 with hx | hx
      · rw [hx, fp_minR_nan tM (fp_ne_nan_of_fin_le htMle)]
        exact htM
      · rcases fp_lt_or_eq_of_le hx with hlt | heqx
        · exact fp_upd_hi_lt htM (Or.inr hlt)
        · exact absurd ⟨he, heqx.symm⟩ hnb
    · left
      rcases he1 with hn | hle
      · rw [hn, fp_maxR_nan tm (fp_ne_nan_of_le_fin htmle)]
        exact htm
      · rcases fp_lt_or_eq_of_le hle with hlt | heqe
        · exact fp_upd_lo_lt htm (Or.inr hlt)
        · exact absurd heqe he
  refine ⟨FP.maxR tm e, FP.minR tM x, ?_, hle1, hle2, hdisj⟩
  simp only [Aabb.slabAxis, aabb_lo_def, aabb_hi_def]
  rw [hpair]
  have hrej : FP.le (FP.minR tM x) (FP.maxR tm e) = false :=
    fp_not_le_of_chain hle1 hle2 hdisj
  simp [hrej]

/-- One slab step on an axis that strictly contains the point: preserves the
weak invariant and each strict side. -/
theorem slabAxis_sound_strict (b : Aabb) (ray : Ray) (axis : Fin 3) (t : ℚ)
    (tm tM : FP)
    (hlos : FP.lt (b.lo axis) (FP.fin ((ray.atP t).comp axis)) = true)
    (hhis : FP.lt (FP.fin ((ray.atP t).comp axis)) (b.hi axis) = true)
    (hw : FP.lt (b.lo axis) (b.hi axis) = true)
    (htm : FP.le tm (FP.fin t) = true) (htM : FP.le (FP.fin t) tM = true)
    (hdisj : FP.lt tm (FP.fin t) = true ∨ FP.lt (FP.fin t) tM = true) :
    ∃ tm' tM', Aabb.slabAxis b ray axis tm tM = some (tm', tM') ∧
      FP.le tm' (FP.fin t) = true ∧ FP.le (FP.fin t) tM' = true ∧
      (FP.lt tm' (FP.fin t) = true ∨ FP.lt (FP.fin t) tM' = true) ∧
      (FP.lt tm (FP.fin t) = true → FP.lt tm' (FP.fin t) = true) ∧
      (FP.lt (FP.fin t) tM = true → FP.lt (FP.fin t) tM' = true) := by
  obtain ⟨e, x, hpair, he1, hx1, hstrict, _⟩ :=
    slab_pair_bounds b ray axis t (fp_le_of_lt hlos) (fp_le_of_lt hhis) hw
  obtain ⟨he2, hx2⟩ := hstrict hlos hhis
  have hle1 : FP.le (FP.maxR tm e) (FP.fin t) = true := fp_upd_lo_le htm he1
  have hle2 : FP.le (FP.fin t) (FP.minR tM x) = true := fp_upd_hi_le htM hx1
  have hpres1 : FP.lt tm (FP.fin t) = true → FP.lt (FP.maxR tm e) (FP.fin t) = true :=
    fun h => fp_upd_lo_lt h he2
  have hpres2 : FP.lt (FP.fin t) tM = true → FP.lt (FP.fin t) (FP.minR tM x) = true :=
    fun h => fp_upd_hi_lt h hx2
  have hdisj' : FP.lt (FP.maxR tm e) (FP.fin t) = true ∨
      FP.lt (FP.fin t) (FP.minR tM x) = true := by
    rcases hdisj with h | h
    · exact Or.inl (hpres1 h)
    · exact Or.inr (hpres2 h)
  refine ⟨FP.maxR tm e, FP.minR tM x, ?_, hle1, hle2, hdisj', hpres1, hpres2⟩
  simp only [Aabb.slabAxis, aabb_lo_def, aabb_hi_def]
  rw [hpair]
  have hrej : FP.le (FP.minR tM x) (FP.maxR tm e) = false :=
    fp_not_le_of_chain hle1 hle2 hdisj'
  simp [hrej]

/-- The full three-axis slab test accepts any parameter strictly inside the
query interval whose point lies in the box, provided the point touches at
most one face (and each axis has positive width). -/
theorem slab_accepts (b : Aabb) (ray : Ray) (t : ℚ) (I : Interval)
    (hmem : ∀ axis : Fin 3, FP.le (b.lo axis) (FP.fin ((ray.atP t).comp axis)) = true ∧
            FP.le (FP.fin ((ray.atP t).comp axis)) (b.hi axis) = true)
    (hw : ∀ axis : Fin 3, FP.lt (b.lo axis) (b.hi axis) = true)
    (hbd : ∀ a1 : Fin 3,
      (b.lo a1 = FP.fin ((ray.atP t).comp a1) ∨ b.hi a1 = FP.fin ((ray.atP t).comp a1)) →
      ∀ a2 : Fin 3, a2 ≠ a1 → FP.lt (b.lo a2) (FP.fin ((ray.atP t).comp a2)) = true ∧
        FP.lt (FP.fin ((ray.atP t).comp a2)) (b.hi a2) = true)
    (hI1 : FP.lt I.min (FP.fin t) = true) (hI2 : FP.lt (FP.fin t) I.max = true) :
    ∃ rec, Aabb.hit b ray I = some rec := by
  have hnsb : ∀ a : Fin 3,
      ¬(FP.lt (b.lo a) (FP.fin ((ray.atP t).comp a)) = true ∧
        FP.lt (FP.fin ((ray.atP t).comp a)) (b.hi a) = true) →
      (b.lo a = FP.fin ((ray.atP t).comp a) ∨ b.hi a = FP.fin ((ray.atP t).comp a)) := by
    intro a hns
    rcases not_and_or.mp hns with h | h
    · left
      rcases fp_lt_or_eq_of_le (hmem a).1 with hlt | heq
      · exact absurd hlt h
      · exact heq
    · right
      rcases fp_lt_or_eq_of_le (hmem a).2 with hlt | heq
      · exact absurd hlt h
      · exact heq.symm
  have huniq : ∀ a1 a2 : Fin 3, a2 ≠ a1 →
      ¬(FP.lt (b.lo a1) (FP.fin ((ray.atP t).comp a1)) = true ∧
        FP.lt (FP.fin ((ray.atP t).comp a1)) (b.hi a1) = true) →
      (FP.lt (b.lo a2) (FP.fin ((ray.atP t).comp a2)) = true ∧
       FP.lt (FP.fin ((ray.atP t).comp a2)) (b.hi a2) = true) := by
    intro a1 a2 hne hns
    exact hbd a1 (hnsb a1 hns) a2 hne
  by_cases s0 : FP.lt (b.lo 0) (FP.fin ((ray.atP t).comp 0)) = true ∧
      FP.lt (FP.fin ((ray.atP t).comp 0)) (b.hi 0) = true
  · by_cases s1 : FP.lt (b.lo 1) (FP.fin ((ray.atP t).comp 1)) = true ∧
        FP.lt (FP.fin ((ray.atP t).comp 1)) (b.hi 1) = true
    · by_cases s2 : FP.lt (b.lo 2) (FP.fin ((ray.atP t).comp 2)) = true ∧
          FP.lt (FP.fin ((ray.atP t).comp 2)) (b.hi 2) = true
      · -- all strict
        obtain ⟨m1, M1, h1, h1a, h1b, h1c, _, _⟩ := slabAxis_sound_strict b ray 0 t
          I.min I.max s0.1 s0.2 (hw 0) (fp_le_of_lt hI1) (fp_le_of_lt hI2) (Or.inl hI1)
        obtain ⟨m2, M2, h2, h2a, h2b, h2c, _, _⟩ := slabAxis_sound_strict b ray 1 t
          m1 M1 s1.1 s1.2 (hw 1) h1a h1b h1c
        obtain ⟨m3, M3, h3, _, _, _, _, _⟩ := slabAxis_sound_strict b ray 2 t
          m2 M2 s2.1 s2.2 (hw 2) h2a h2b h2c
        have hfin : Aabb.hit b ray I =
            some { position := ray.atP (m3.toQ.getD 0), normal := ⟨0, 0, 0⟩, t := m3,
                   u := 0, v := 0, front_face := true, material := none } := by
          simp [Aabb.hit, Aabb.hitSlab, h1, h2, h3]
        exact ⟨_, hfin⟩
      · -- boundary on axis 2
        obtain ⟨m1, M1, h1, h1a, h1b, h1c, h1p, h1q⟩ := slabAxis_sound_strict b ray 0 t
          I.min I.max s0.1 s0.2 (hw 0) (fp_le_of_lt hI1) (fp_le_of_lt hI2) (Or.inl hI1)
        obtain ⟨m2, M2, h2, h2a, h2b, h2c, h2p, h2q⟩ := slabAxis_sound_strict b ray 1 t
          m1 M1 s1.1 s1.2 (hw 1) h1a h1b h1c
        obtain ⟨m3, M3, h3, _, _, _⟩ := slabAxis_sound_bound b ray 2 t m2 M2
          (hmem 2).1 (hmem 2).2 (hw 2) (h2p (h1p hI1)) (h2q (h1q hI2))
        have hfin : Aabb.hit b ray I =
            some { position := ray.atP (m3.toQ.getD 0), normal := ⟨0, 0, 0⟩, t := m3,
                   u := 0, v := 0, front_face := true, material := none } := by
          simp [Aabb.hit, Aabb.hitSlab, h1, h2, h3]
        exact ⟨_, hfin⟩
    · -- axis 1 not strict: axes 0 and 2 strict
      have s2 := huniq 1 2 (by decide) s1
      obtain ⟨m1, M1, h1, h1a, h1b, h1c, h1p, h1q⟩ := slabAxis_sound_strict b ray 0 t
        I.min I.max s0.1 s0.2 (hw 0) (fp_le_of_lt hI1) (fp_le_of_lt hI2) (Or.inl hI1)
      obtain ⟨m2, M2, h2, h2a, h2b, h2c⟩ := slabAxis_sound_bound b ray 1 t m1 M1
        (hmem 1).1 (hmem 1).2 (hw 1) (h1p hI1) (h1q hI2)
      obtain ⟨m3, M3, h3, _, _, _, _, _⟩ := slabAxis_sound_strict b ray 2 t
        m2 M2 s2.1 s2.2 (hw 2) h2a h2b h2c
      have hfin : Aabb.hit b ray I =
          some { position := ray.atP (m3.toQ.getD 0), normal := ⟨0, 0, 0⟩, t := m3,
                 u := 0, v := 0, front_face := true, material := none } := by
        simp [Aabb.hit, Aabb.hitSlab, h1, h2, h3]
      exact ⟨_, hfin⟩
  · -- axis 0 not strict: axes 1 and 2 strict
    have s1 := huniq 0 1 (by decide) s0
    have s2 := huniq 0 2 (by decide) s0
    obtain ⟨m1, M1, h1, h1a, h1b, h1c⟩ := slabAxis_sound_bound b ray 0 t I.min I.max
      (hmem 0).1 (hmem 0).2 (hw 0) hI1 hI2
    obtain ⟨m2, M2, h2, h2a, h2b, h2c, _, _⟩ := slabAxis_sound_strict b ray 1 t
      m1 M1 s1.1 s1.2 (hw 1) h1a h1b h1c
    obtain ⟨m3, M3, h3, _, _, _, _, _⟩ := slabAxis_sound_strict b ray 2 t
      m2 M2 s2.1 s2.2 (hw 2) h2a h2b h2c
    have hfin : Aabb.hit b ray I =
        some { position := ray.atP (m3.toQ.getD 0), normal := ⟨0, 0, 0⟩, t := m3,
               u := 0, v := 0, front_face := true, material := none } := by
      simp [Aabb.hit, Aabb.hitSlab, h1, h2, h3]
    exact ⟨_, hfin⟩

theorem fp_le_refl {a : FP} (ha : a ≠ FP.nan) : FP.le a a = true := by
  cases a <;> simp_all [FP.le]

theorem fp_minR_le_left {a b : FP} (ha : a ≠ FP.nan) (hb : b ≠ FP.nan) :
    FP.le (FP.minR a b) a = true := by
  unfold FP.minR
  rw [if_neg ha, if_neg hb]
  split_ifs with h
  · exact fp_le_of_lt h
  · exact fp_le_refl ha

theorem fp_minR_le_right {a b : FP} (ha : a ≠ FP.nan) (hb : b ≠ FP.nan) :
    FP.le (FP.minR a b) b = true := by
  unfold FP.minR
  rw [if_neg ha, if_neg hb]
  split_ifs with h
  · exact fp_le_refl hb
  · cases a <;> cases b <;> simp_all [FP.le, FP.lt] <;> linarith

theorem fp_le_maxR_left {a b : FP} (ha : a ≠ FP.nan) (hb : b ≠ FP.nan) :
    FP.le a (FP.maxR a b) = true := by
  unfold FP.maxR
  rw [if_neg ha, if_neg hb]
  split_ifs with h
  · exact fp_le_of_lt h
  · exact fp_le_refl ha

theorem fp_le_maxR_right {a b : FP} (ha : a ≠ FP.nan) (hb : b ≠ FP.nan) :
    FP.le b (FP.maxR a b) = true := by
  unfold FP.maxR
  rw [if_neg ha, if_neg hb]
  split_ifs with h
  · exact fp_le_refl hb
  · cases a <;> cases b <;> simp_all [FP.le, FP.lt] <;> linarith

theorem aabb_subset_refl {A : Aabb} (hA : A.isFin) : Aabb.subset A A := by
  intro axis
  obtain ⟨⟨ql, hql⟩, ⟨qh, hqh⟩⟩ := hA axis
  rw [hql, hqh]
  exact ⟨fp_le_refl (by simp), fp_le_refl (by simp)⟩

theorem aabb_subset_trans {A B C : Aabb} (h1 : Aabb.subset A B) (h2 : Aabb.subset B C) :
    Aabb.subset A C := by
  intro axis
  exact ⟨fp_le_trans (h2 axis).1 (h1 axis).1, fp_le_trans (h1 axis).2 (h2 axis).2⟩

theorem surrounding_lo (A B : Aabb) (axis : Fin 3) :
    (Aabb.surrounding A B).lo axis = FP.minR (A.lo axis) (B.lo axis) := by
  fin_cases axis <;> rfl

theorem surrounding_hi (A B : Aabb) (axis : Fin 3) :
    (Aabb.surrounding A B).hi axis = FP.maxR (A.hi axis) (B.hi axis) := by
  fin_cases axis <;> rfl

theorem fp_ne_nan_of_fin {q : ℚ} {a : FP} (h : a = FP.fin q) : a ≠ FP.nan := by
  subst h; simp

theorem surrounding_subset_left {A B : Aabb} (hA : A.isFin) (hB : B.isFin) :
    Aabb.subset A (Aabb.surrounding A B) := by
  intro axis
  obtain ⟨⟨al, hal⟩, ⟨ah, hah⟩⟩ := hA axis
  obtain ⟨⟨bl, hbl⟩, ⟨bh, hbh⟩⟩ := hB axis
  rw [surrounding_lo, surrounding_hi, hal, hah, hbl, hbh]
  exact ⟨fp_minR_le_left (by simp) (by simp), fp_le_maxR_left (by simp) (by simp)⟩

theorem surrounding_subset_right {A B : Aabb} (hA : A.isFin) (hB : B.isFin) :
    Aabb.subset B (Aabb.surrounding A B) := by
  intro axis
  obtain ⟨⟨al, hal⟩, ⟨ah, hah⟩⟩ := hA axis
  obtain ⟨⟨bl, hbl⟩, ⟨bh, hbh⟩⟩ := hB axis
  rw [surrounding_lo, surrounding_hi, hal, hah, hbl, hbh]
  exact ⟨fp_minR_le_right (by simp) (by simp), fp_le_maxR_right (by simp) (by simp)⟩

theorem surrounding_isFin {A B : Aabb} (hA : A.isFin) (hB : B.isFin) :
    (Aabb.surrounding A B).isFin := by
  intro axis
  obtain ⟨⟨al, hal⟩, ⟨ah, hah⟩⟩ := hA axis
  obtain ⟨⟨bl, hbl⟩, ⟨bh, hbh⟩⟩ := hB axis
  rw [surrounding_lo, surrounding_hi, hal, hah, hbl, hbh]
  constructor
  · unfold FP.minR
    split_ifs <;> simp_all
  · unfold FP.maxR
    split_ifs <;> simp_all

theorem sphere_bbox_isFin (s : Sphere) : s.bounding_box.isFin := by
  intro axis
  rw [sphere_bbox_lo, sphere_bbox_hi]
  exact ⟨⟨_, rfl⟩, ⟨_, rfl⟩⟩

theorem wf_leaf_sphere {o : Object} {bbox : Aabb} (h : (BvhNode.leaf o bbox).wf) :
    ∃ s, o = Object.sphere s ∧ bbox = s.bounding_box := by
  cases o with
  | sphere s =>
      refine ⟨s, rfl, ?_⟩
      have : Object.bounding_box (Object.sphere s) = some bbox := h
      simp [Object.bounding_box] at this
      exact this.symm
  | dummy =>
      have : Object.bounding_box Object.dummy = some bbox := h
      simp [Object.bounding_box] at this

theorem wf_bbox_isFin (n : BvhNode) (hwf : n.wf) : n.bboxOf.isFin := by
  induction n with
  | leaf o bbox =>
      obtain ⟨s, _, hbb⟩ := wf_leaf_sphere hwf
      simp only [BvhNode.bboxOf, hbb]
      exact sphere_bbox_isFin s
  | branch l r bbox ihl ihr =>
      obtain ⟨hl, hr, hbb⟩ := hwf
      simp only [BvhNode.bboxOf, hbb]
      exact surrounding_isFin (ihl hl) (ihr hr)

theorem wf_contains (n : BvhNode) (hwf : n.wf) :
    ∀ o ∈ n.objs, ∀ s, o = Object.sphere s → Aabb.subset s.bounding_box n.bboxOf := by
  induction n with
  | leaf o bbox =>
      intro o' ho' s hs
      obtain ⟨s2, ho2, hbb⟩ := wf_leaf_sphere hwf
      simp [BvhNode.objs] at ho'
      subst ho'
      rw [hs] at ho2
      cases ho2
      simp only [BvhNode.bboxOf, hbb]
      exact aabb_subset_refl (sphere_bbox_isFin s)
  | branch l r bbox ihl ihr =>
      intro o' ho' s hs
      obtain ⟨hl, hr, hbb⟩ := hwf
      simp only [BvhNode.bboxOf, hbb]
      simp only [BvhNode.objs, List.mem_append] at ho'
      rcases ho' with h | h
      · exact aabb_subset_trans (ihl hl o' h s hs)
          (surrounding_subset_left (wf_bbox_isFin l hl) (wf_bbox_isFin r hr))
      · exact aabb_subset_trans (ihr hr o' h s hs)
          (surrounding_subset_right (wf_bbox_isFin l hl) (wf_bbox_isFin r hr))

theorem omin_none_right (a : Option ℚ) : omin a none = a := by
  cases a <;> rfl

theorem omin_assoc (a b c : Option ℚ) : omin (omin a b) c = omin a (omin b c) := by
  cases a <;> cases b <;> cases c <;> simp [omin, min_assoc]

theorem candMin_cons (sq : ℚ → ℚ) (o : Object) (os : List Object) (ray : Ray) (mn : FP) :
    candMin sq (o :: os) ray mn = omin (o.cand sq ray mn) (candMin sq os ray mn) := rfl

theorem candMin_append (sq : ℚ → ℚ) (l1 l2 : List Object) (ray : Ray) (mn : FP) :
    candMin sq (l1 ++ l2) ray mn = omin (candMin sq l1 ray mn) (candMin sq l2 ray mn) := by
  induction l1 with
  | nil => rfl
  | cons o os ih =>
      rw [List.cons_append, candMin_cons, ih, candMin_cons, omin_assoc]

theorem candMin_mem (sq : ℚ → ℚ) (objs : List Object) (ray : Ray) (mn : FP) (q : ℚ)
    (h : candMin sq objs ray mn = some q) : ∃ o ∈ objs, o.cand sq ray mn = some q := by
  induction objs with
  | nil => simp [candMin] at h
  | cons o os ih =>
      rw [candMin_cons] at h
      cases hc : o.cand sq ray mn with
      | none =>
          rw [hc] at h
          simp only [omin] at h
          obtain ⟨w, hw, hwc⟩ := ih h
          exact ⟨w, List.mem_cons_of_mem o hw, hwc⟩
      | some a =>
          rw [hc] at h
          cases hcs : candMin sq os ray mn with
          | none =>
              rw [hcs] at h
              simp only [omin] at h
              cases h
              exact ⟨o, List.mem_cons_self o os, hc⟩
          | some b =>
              rw [hcs] at h
              simp only [omin] at h
              cases h
              rcases min_choice a b with hm | hm
              · exact ⟨o, List.mem_cons_self o os, by rw [hc, hm]⟩
              · obtain ⟨w, hw, hwc⟩ := ih (by rw [hcs, hm])
                exact ⟨w, List.mem_cons_of_mem o hw, hwc⟩

theorem omin_comm (a b : Option ℚ) : omin a b = omin b a := by
  cases a <;> cases b <;> simp [omin, min_comm]

theorem candMin_perm (sq : ℚ → ℚ) {l1 l2 : List Object} (h : l1.Perm l2)
    (ray : Ray) (mn : FP) : candMin sq l1 ray mn = candMin sq l2 ray mn := by
  induction h with
  | nil => rfl
  | cons x _ ih => rw [candMin_cons, candMin_cons, ih]
  | swap x y l =>
      rw [candMin_cons, candMin_cons, candMin_cons, candMin_cons,
        ← omin_assoc, ← omin_assoc, omin_comm (Object.cand sq y ray mn)]
  | trans _ _ ih1 ih2 => rw [ih1, ih2]

theorem mkRec_t (uvF : Vec3 → ℚ × ℚ) (s : Sphere) (ray : Ray) (root : ℚ) :
    (s.mkRec uvF ray root).t = FP.fin root := by
  simp [Sphere.mkRec, HitRecord.set_face_normal]

/-- The `t` of an object query is its candidate filtered by the upper
bound. -/
theorem object_hit_t (sq : ℚ → ℚ) (uvF : Vec3 → ℚ × ℚ) (o : Object) (ray : Ray)
    (mn mx : FP)
    (hsd : ∀ s, o = Object.sphere s → 0 ≤ s.disc ray → 0 ≤ sq (s.disc ray)) :
    (o.hit sq uvF ray ⟨mn, mx⟩).map (fun h : HitRecord => h.t) =
      thresh (o.cand sq ray mn) mx := by
  cases o with
  | dummy => rfl
  | sphere s =>
      show (s.hit sq uvF ray ⟨mn, mx⟩).map (fun h : HitRecord => h.t) = _
      rw [sphere_hit_char sq uvF s ray mn mx (hsd s rfl)]
      show _ = thresh (s.cand sq ray mn) mx
      cases hc : s.cand sq ray mn with
      | none => rfl
      | some q =>
          simp only [thresh, Option.some_bind]
          by_cases hq : FP.lt (FP.fin q) mx = true
          · simp [hq, mkRec_t]
          · rw [Bool.not_eq_true] at hq
            simp [hq]

theorem fp_min_lt_not_lt {q b : ℚ} {mx : FP} (hq : FP.lt (FP.fin q) mx = false)
    (hb : FP.lt (FP.fin b) mx = true) : b < q := by
  cases mx <;> simp_all [FP.lt]
  linarith

/-- The brute-force accumulator pass returns the smallest candidate below
the running bound, falling back to the accumulated best record. -/
theorem hitListAux_eq (sq : ℚ → ℚ) (uvF : Vec3 → ℚ × ℚ) (ray : Ray) (mn : FP)
    (objs : List Object)
    (hsd : ∀ o ∈ objs, ∀ s, o = Object.sphere s → 0 ≤ s.disc ray → 0 ≤ sq (s.disc ray)) :
    ∀ (mx : FP) (best : Option HitRecord),
    (hitListAux sq uvF ray mn objs mx best).map (fun h : HitRecord => h.t) =
      (match thresh (candMin sq objs ray mn) mx with
       | some v => some v
       | none => best.map (fun h : HitRecord => h.t)) := by
  induction objs with
  | nil =>
      intro mx best
      simp [hitListAux, candMin, thresh]
  | cons o os ih =>
      intro mx best
      have hstep := object_hit_t sq uvF o ray mn mx
        (fun s hs => hsd o (List.mem_cons_self o os) s hs)
      have hsd' : ∀ o' ∈ os, ∀ s, o' = Object.sphere s →
          0 ≤ s.disc ray → 0 ≤ sq (s.disc ray) :=
        fun o' ho' => hsd o' (List.mem_cons_of_mem o ho')
      cases hh : o.hit sq uvF ray (Interval.new mn mx) with
      | some rec =>
          have hh' : o.hit sq uvF ray ⟨mn, mx⟩ = some rec := hh
          rw [hh'] at hstep
          cases hc : o.cand sq ray mn with
          | none => rw [hc] at hstep; simp [thresh] at hstep
          | some q =>
              rw [hc] at hstep
              simp only [thresh, Option.some_bind, Option.map_some'] at hstep
              by_cases hq : FP.lt (FP.fin q) mx = true
              · rw [if_pos hq] at hstep
                have hrect : rec.t = FP.fin q := Option.some.inj hstep
                simp only [hitListAux, hh]
                rw [ih hsd' rec.t (some rec), hrect]
                rw [candMin_cons, hc]
                cases hcs : candMin sq os ray mn with
                | none =>
                    simp only [omin, thresh, Option.some_bind, if_pos hq]
                    simp [hrect]
                | some b =>
                    simp only [omin]
                    by_cases hb : b < q
                    · have hmin : min q b = b := min_eq_right (le_of_lt hb)
                      have hbmx : FP.lt (FP.fin b) mx = true :=
                        fp_lt_of_le_of_lt (fp_le_of_lt (fp_lt_fin_fin.mpr hb)) hq
                      have hbq : FP.lt (FP.fin b) (FP.fin q) = true := fp_lt_fin_fin.mpr hb
                      simp only [thresh, Option.some_bind, hmin, if_pos hbmx, if_pos hbq]
                    · push_neg at hb
                      have hmin : min q b = q := min_eq_left hb
                      have hbq : FP.lt (FP.fin b) (FP.fin q) = false := by
                        simp [FP.lt]
                        linarith
                      simp only [thresh, Option.some_bind, hmin, if_pos hq, hbq,
                        Bool.false_eq_true, if_false]
                      simp [hrect]
              · rw [Bool.not_eq_true] at hq
                rw [hq] at hstep
                simp at hstep
      | none =>
          have hh' : o.hit sq uvF ray ⟨mn, mx⟩ = none := hh
          rw [hh'] at hstep
          simp only [hitListAux, hh]
          rw [ih hsd' mx best]
          rw [candMin_cons]
          cases hc : o.cand sq ray mn with
          | none => simp [omin]
          | some q =>
              rw [hc] at hstep
              simp only [thresh, Option.some_bind, Option.map_none'] at hstep
              by_cases hq : FP.lt (FP.fin q) mx = true
              · rw [if_pos hq] at hstep; exact absurd hstep.symm (by simp)
              · rw [Bool.not_eq_true] at hq
                cases hcs : candMin sq os ray mn with
                | none =>
                    simp only [omin, thresh, Option.some_bind, hq, Bool.false_eq_true,
                      if_false]
                    simp
                | some b =>
                    simp only [omin]
                    by_cases hbx : FP.lt (FP.fin b) mx = true
                    · have hb : b < q := fp_min_lt_not_lt hq hbx
                      have hmin : min q b = b := min_eq_right (le_of_lt hb)
                      simp only [thresh, Option.some_bind, hmin, if_pos hbx]
                    · rw [Bool.not_eq_true] at hbx
                      have hmin : FP.lt (FP.fin (min q b)) mx = false := by
                        rcases min_choice q b with hm | hm <;> rw [hm]
                        · exact hq
                        · exact hbx
                      simp only [thresh, Option.some_bind, hq, hbx, hmin,
                        Bool.false_eq_true, if_false]

theorem option_some_or {α : Type} (a : α) (b : Option α) : (some a).or b = some a := rfl

/-- `HittableList::hit` in candidate form. -/
theorem list_hit_t (sq : ℚ → ℚ) (uvF : Vec3 → ℚ × ℚ) (objs : List Object) (ray : Ray)
    (mn mx : FP)
    (hsd : ∀ o ∈ objs, ∀ s, o = Object.sphere s → 0 ≤ s.disc ray → 0 ≤ sq (s.disc ray)) :
    (HittableList.hit sq uvF ⟨objs⟩ ray ⟨mn, mx⟩).map (fun h : HitRecord => h.t) =
      thresh (candMin sq objs ray mn) mx := by
  unfold HittableList.hit
  rw [hitListAux_eq sq uvF ray mn objs hsd mx none]
  cases thresh (candMin sq objs ray mn) mx <;> rfl

/-- BVH traversal in candidate form: on a well-formed tree of admissible
spheres it returns exactly the smallest candidate below the upper bound. -/
theorem bvhnode_hit_t (sq : ℚ → ℚ) (uvF : Vec3 → ℚ × ℚ) (ray : Ray) :
    ∀ (n : BvhNode), n.wf → (∀ o ∈ n.objs, sphereOk sq ray o) →
    ∀ mn mx, ((n.hit sq uvF ray ⟨mn, mx⟩).map (fun h : HitRecord => h.t)) =
      thresh (candMin sq n.objs ray mn) mx := by
  intro n
  induction n with
  | leaf o bbox =>
      intro hwf hok mn mx
      obtain ⟨s, hos, hbbs⟩ := wf_leaf_sphere hwf
      obtain ⟨s', hos', hrad, hrs, hsq⟩ := hok o (by simp [BvhNode.objs])
      have hss : s = s' := by
        rw [hos] at hos'
        exact Object.sphere.inj hos'
      subst hss
      have hsd_o : ∀ s2 : Sphere, o = Object.sphere s2 →
          0 ≤ s2.disc ray → 0 ≤ sq (s2.disc ray) := by
        intro s2 hs2 hd
        rw [hos] at hs2
        cases Object.sphere.inj hs2
        exact (hsq hd).1
      have hcm : candMin sq (BvhNode.leaf o bbox).objs ray mn = Object.cand sq o ray mn := by
        show candMin sq [o] ray mn = _
        rw [candMin_cons]
        exact omin_none_right _
      have hcand_s : Object.cand sq o ray mn = s.cand sq ray mn := by rw [hos]; rfl
      rw [hcm]
      cases hc : Object.cand sq o ray mn with
      | none =>
          cases hbx : bbox.hit ray ⟨mn, mx⟩ with
          | none => simp [BvhNode.hit, hbx, thresh]
          | some brec =>
              have := object_hit_t sq uvF o ray mn mx hsd_o
              rw [hc] at this
              simp only [BvhNode.hit, hbx, Option.some_bind]
              exact this
      | some q =>
          by_cases hq : FP.lt (FP.fin q) mx = true
          · have hc' : s.cand sq ray mn = some q := by rw [← hcand_s]; exact hc
            obtain ⟨hmnq, hons⟩ := sphere_cand_mem sq s ray mn q hsq hrs hc'
            have hsub : Aabb.subset s.bounding_box bbox := by
              rw [hbbs]
              exact aabb_subset_refl (sphere_bbox_isFin s)
            obtain ⟨hmemb, hwb, hbdb⟩ :=
              sphere_in_box_hyps s bbox (ray.atP q) hrad hons hsub
            obtain ⟨r0, hr0⟩ := slab_accepts bbox ray q ⟨mn, mx⟩ hmemb hwb hbdb hmnq hq
            simp only [BvhNode.hit, hr0, Option.some_bind]
            have := object_hit_t sq uvF o ray mn mx hsd_o
            rw [hc] at this
            rw [this]
          · rw [Bool.not_eq_true] at hq
            have hthr : thresh (some q) mx = none := by
              simp [thresh, hq]
            rw [hthr]
            cases hbx : bbox.hit ray ⟨mn, mx⟩ with
            | none => simp [BvhNode.hit, hbx]
            | some brec =>
                have := object_hit_t sq uvF o ray mn mx hsd_o
                rw [hc, hthr] at this
                simp only [BvhNode.hit, hbx, Option.some_bind]
                rw [this]
  | branch l r bbox ihl ihr =>
      intro hwf hok mn mx
      obtain ⟨hwl, hwr, hbb⟩ := hwf
      have hokl : ∀ o ∈ l.objs, sphereOk sq ray o := fun o ho =>
        hok o (by simp [BvhNode.objs]; exact Or.inl ho)
      have hokr : ∀ o ∈ r.objs, sphereOk sq ray o := fun o ho =>
        hok o (by simp [BvhNode.objs]; exact Or.inr ho)
      have hIHl := ihl hwl hokl
      have hIHr := ihr hwr hokr
      have hRHS : candMin sq (BvhNode.branch l r bbox).objs ray mn =
          omin (candMin sq l.objs ray mn) (candMin sq r.objs ray mn) := by
        show candMin sq (l.objs ++ r.objs) ray mn = _
        exact candMin_append sq l.objs r.objs ray mn
      rw [hRHS]
      cases hbx : bbox.hit ray ⟨mn, mx⟩ with
      | none =>
          simp only [BvhNode.hit, hbx, Option.none_bind, Option.map_none']
          cases hcm : omin (candMin sq l.objs ray mn) (candMin sq r.objs ray mn) with
          | none => rfl
          | some q =>
              by_cases hq : FP.lt (FP.fin q) mx = true
              · exfalso
                have hcm2 : candMin sq (l.objs ++ r.objs) ray mn = some q := by
                  rw [candMin_append]; exact hcm
                obtain ⟨o, ho, hoc⟩ := candMin_mem sq (l.objs ++ r.objs) ray mn q hcm2
                have hoko : sphereOk sq ray o := by
                  apply hok
                  show o ∈ l.objs ++ r.objs
                  exact ho
                obtain ⟨s, hos, hrad, hrs, hsq⟩ := hoko
                have hc' : s.cand sq ray mn = some q := by
                  rw [hos] at hoc
                  exact hoc
                obtain ⟨hmnq, hons⟩ := sphere_cand_mem sq s ray mn q hsq hrs hc'
                have hsub : Aabb.subset s.bounding_box bbox := by
                  have := wf_contains (BvhNode.branch l r bbox) ⟨hwl, hwr, hbb⟩ o ho s hos
                  simpa [BvhNode.bboxOf] using this
                obtain ⟨hmemb, hwb, hbdb⟩ :=
                  sphere_in_box_hyps s bbox (ray.atP q) hrad hons hsub
                obtain ⟨r0, hr0⟩ := slab_accepts bbox ray q ⟨mn, mx⟩ hmemb hwb hbdb hmnq hq
                rw [hr0] at hbx
                exact absurd hbx (by simp)
              · rw [Bool.not_eq_true] at hq
                simp [thresh, hq]
      | some brec =>
          simp only [BvhNode.hit, hbx, Option.some_bind]
          cases hl : l.hit sq uvF ray ⟨mn, mx⟩ with
          | some recL =>
              have hLt := hIHl mn mx
              rw [hl] at hLt
              cases hcl : candMin sq l.objs ray mn with
              | none =>
                  rw [hcl] at hLt
                  simp [thresh] at hLt
              | some qL =>
                  rw [hcl] at hLt
                  simp only [thresh, Option.some_bind, Option.map_some'] at hLt
                  by_cases hql : FP.lt (FP.fin qL) mx = true
                  · rw [if_pos hql] at hLt
                    have hlt : recL.t = FP.fin qL := Option.some.inj hLt
                    have hIHr2 := hIHr mn recL.t
                    cases hr2 : r.hit sq uvF ray ⟨mn, recL.t⟩ with
                    | some recR =>
                        rw [hr2] at hIHr2
                        cases hcr : candMin sq r.objs ray mn with
                        | none =>
                            rw [hcr] at hIHr2
                            simp [thresh] at hIHr2
                        | some qR =>
                            rw [hcr] at hIHr2
                            simp only [thresh, Option.some_bind, Option.map_some'] at hIHr2
                            by_cases hqr : FP.lt (FP.fin qR) recL.t = true
                            · rw [if_pos hqr] at hIHr2
                              have hrt : recR.t = FP.fin qR := Option.some.inj hIHr2
                              rw [hlt] at hqr
                              have hqrq : qR < qL := fp_lt_fin_fin.mp hqr
                              have hmin : min qL qR = qR := min_eq_right (le_of_lt hqrq)
                              have hqrmx : FP.lt (FP.fin qR) mx = true :=
                                fp_lt_of_le_of_lt (fp_le_of_lt hqr) hql
                              simp only [hl, Interval.new, hr2, option_some_or,
                                Option.map_some', hrt,
                                omin, hmin, thresh, Option.some_bind, if_pos hqrmx]
                            · rw [Bool.not_eq_true] at hqr
                              rw [hqr] at hIHr2
                              simp at hIHr2
                    | none =>
                        rw [hr2] at hIHr2
                        have hnone : thresh (candMin sq r.objs ray mn) recL.t = none := by
                          simp only [Option.map_none'] at hIHr2
                          exact hIHr2.symm
                        rw [hlt] at hr2
                        cases hcr : candMin sq r.objs ray mn with
                        | none =>
                            simp only [hl, Interval.new, hr2, Option.none_or,
                              Option.map_some', hlt,
                              hcr, omin, thresh, Option.some_bind, if_pos hql]
                        | some qR =>
                            rw [hcr] at hnone
                            simp only [thresh, Option.some_bind] at hnone
                            by_cases hqr : FP.lt (FP.fin qR) recL.t = true
                            · rw [if_pos hqr] at hnone
                              exact absurd hnone (by simp)
                            · rw [Bool.not_eq_true] at hqr
                              rw [hlt] at hqr
                              have hqq : qL ≤ qR := by
                                by_contra hlt2
                                push_neg at hlt2
                                have hx := fp_lt_fin_fin.mpr hlt2
                                rw [hqr] at hx
                                exact Bool.noConfusion hx
                              have hmin : min qL qR = qL := min_eq_left hqq
                              simp only [hl, Interval.new, hr2, Option.none_or,
                                Option.map_some', hlt,
                                omin, hmin, thresh, Option.some_bind, if_pos hql]
                  · rw [Bool.not_eq_true] at hql
                    rw [hql] at hLt
                    simp at hLt
          | none =>
              have hLt := hIHl mn mx
              rw [hl] at hLt
              have hIHr2 := hIHr mn mx
              simp only [hl, Option.or_none]
              cases hcl : candMin sq l.objs ray mn with
              | none =>
                  show _ = thresh (omin none (candMin sq r.objs ray mn)) mx
                  exact hIHr2
              | some qL =>
                  rw [hcl] at hLt
                  simp only [thresh, Option.some_bind, Option.map_none'] at hLt
                  by_cases hql : FP.lt (FP.fin qL) mx = true
                  · rw [if_pos hql] at hLt
                    exact absurd hLt.symm (by simp)
                  · rw [Bool.not_eq_true] at hql
                    cases hcr : candMin sq r.objs ray mn with
                    | none =>
                        rw [hcr] at hIHr2
                        rw [hIHr2]
                        simp only [omin, thresh, Option.some_bind, Option.none_bind, hql,
                          Bool.false_eq_true, if_false]
                    | some qR =>
                        rw [hcr] at hIHr2
                        by_cases hqrx : FP.lt (FP.fin qR) mx = true
                        · have hb : qR < qL := fp_min_lt_not_lt hql hqrx
                          have hmin : min qL qR = qR := min_eq_right (le_of_lt hb)
                          rw [hIHr2]
                          simp only [omin, hmin]
                        · rw [Bool.not_eq_true] at hqrx
                          have hmin : FP.lt (FP.fin (min qL qR)) mx = false := by
                            rcases min_choice qL qR with hm | hm <;> rw [hm]
                            · exact hql
                            · exact hqrx
                          rw [hIHr2]
                          simp only [omin, thresh, Option.some_bind, hmin, hqrx,
                            Bool.false_eq_true, if_false]

/-- C1 (corrected): over a list of positive-radius spheres whose stored
`radius_squared` matches `radius * radius` and whose discriminants the square
root evaluates exactly, a successfully built BVH and the brute-force linear
search of `HittableList::hit` return hits with exactly the same `t` (and in
particular are `none` together).  The original claim, stated for arbitrary
boxed objects, is false: a zero-radius sphere is reported by the brute-force
search but missed by the BVH, whose degenerate bounding box the slab test
rejects. -/
theorem bvh_hit_equals_brute_force (sq : ℚ → ℚ) (uvF : Vec3 → ℚ × ℚ)
    (objs : List Object) (ray : Ray) (b : Bvh) (I : Interval)
    (hb : Bvh.new objs = Except.ok b)
    (hok : ∀ o ∈ objs, sphereOk sq ray o) :
    (Bvh.hit sq uvF b ray I).map (fun h : HitRecord => h.t) =
      (HittableList.hit sq uvF ⟨objs⟩ ray I).map (fun h : HitRecord => h.t) := by
  obtain ⟨mn, mx⟩ := I
  have hne : objs ≠ [] := by
    intro h
    subst h
    simp [Bvh.new] at hb
  have hbbn : ∀ o ∈ objs, o.bounding_box ≠ none := by
    intro o ho
    obtain ⟨s, hos, _, _, _⟩ := hok o ho
    rw [hos]
    simp [Object.bounding_box]
  obtain ⟨t, hbt, hwf, hperm⟩ := build_ok_wf_perm objs.length objs le_rfl hne hbbn
  have hne2 : objs.isEmpty = false := by
    cases objs with
    | nil => exact absurd rfl hne
    | cons a as => rfl
  have htb : b.tree = t := by
    simp only [Bvh.new, hne2, Bool.false_eq_true, if_false] at hb
    rw [hbt, except_ok_bind] at hb
    cases hbb2 : t.bounding_box with
    | none =>
        rw [hbb2] at hb
        exact absurd hb (by simp)
    | some bb =>
        rw [hbb2] at hb
        cases Except.ok.inj hb
        rfl
  have hokt : ∀ o ∈ t.objs, sphereOk sq ray o := fun o ho =>
    hok o (hperm.mem_iff.mp ho)
  have hL := bvhnode_hit_t sq uvF ray t hwf hokt mn mx
  have hsd : ∀ o ∈ objs, ∀ s, o = Object.sphere s →
      0 ≤ s.disc ray → 0 ≤ sq (s.disc ray) := by
    intro o ho s hs hd
    obtain ⟨s2, hos2, hr2a, hr2b, hsq⟩ := hok o ho
    rw [hos2] at hs
    cases Object.sphere.inj hs
    exact (hsq hd).1
  have hR := list_hit_t sq uvF objs ray mn mx hsd
  simp only [Bvh.hit, htb]
  rw [hL, hR, candMin_perm sq hperm ray mn]

/-! Evaluation lemmas for the model floats at constructor shapes, used to
compute the concrete BVH fixtures. -/

theorem fp_subQ_fin (a b : ℚ) : FP.subQ (FP.fin a) b = FP.fin (a - b) := rfl

theorem fp_mul_fin_fin (a b : ℚ) : FP.mul (FP.fin a) (FP.fin b) = FP.fin (a * b) := rfl

theorem fp_mul_fin_pinf (a : ℚ) :
    FP.mul (FP.fin a) FP.pinf =
      if a > 0 then FP.pinf else if a < 0 then FP.ninf else FP.nan := rfl

theorem fp_lt_fin_pinf (q : ℚ) : FP.lt (FP.fin q) FP.pinf = true := rfl

theorem fp_lt_fin_fin_eq (a b : ℚ) : FP.lt (FP.fin a) (FP.fin b) = decide (a < b) := rfl

theorem fp_le_pinf_fin (q : ℚ) : FP.le FP.pinf (FP.fin q) = false := rfl

theorem fp_le_fin_fin_eq (a b : ℚ) : FP.le (FP.fin a) (FP.fin b) = decide (a ≤ b) := rfl

theorem fp_le_fin_pinf (q : ℚ) : FP.le (FP.fin q) FP.pinf = true := rfl

theorem fp_toQ_fin (q : ℚ) : FP.toQ (FP.fin q) = some q := rfl

theorem fp_sub_fin_fin (a b : ℚ) : FP.sub (FP.fin a) (FP.fin b) = FP.fin (a - b) := rfl

theorem fp_minR_pinf_fin (q : ℚ) : FP.minR FP.pinf (FP.fin q) = FP.fin q := rfl

theorem fp_maxR_ninf_fin (q : ℚ) : FP.maxR FP.ninf (FP.fin q) = FP.fin q := rfl

theorem fp_minR_fin_fin (a b : ℚ) :
    FP.minR (FP.fin a) (FP.fin b) = if b < a then FP.fin b else FP.fin a := by
  unfold FP.minR
  rw [if_neg (by simp), if_neg (by simp), fp_lt_fin_fin_eq]
  by_cases h : b < a
  · rw [if_pos (by simpa using h), if_pos h]
  · rw [if_neg (by simpa using h), if_neg h]

theorem fp_maxR_fin_fin (a b : ℚ) :
    FP.maxR (FP.fin a) (FP.fin b) = if a < b then FP.fin b else FP.fin a := by
  unfold FP.maxR
  rw [if_neg (by simp), if_neg (by simp), fp_lt_fin_fin_eq]
  by_cases h : a < b
  · rw [if_pos (by simpa using h), if_pos h]
  · rw [if_neg (by simpa using h), if_neg h]

theorem fp_cmpF_fin_fin (a b : ℚ) : FP.cmpF (FP.fin a) (FP.fin b) = some (compare a b) := rfl

/-- The ray along `+z` with the renderer's interval sees the point box of
the zero-radius sphere rejected on the axes the ray never crosses twice:
the `x` and `y` slabs keep `(0.001, +inf)` (the `0 * inf` NaNs are ignored
by `max`/`min`), and the `z` slab collapses to `t_min = t_max = 5`, which
`t_max <= t_min` rejects. -/
theorem slabAxis_bbP_0 :
    Aabb.slabAxis bbP rayZ 0 (FP.fin (1/1000)) FP.pinf =
      some (FP.fin (1/1000), FP.pinf) := by
  norm_num [Aabb.slabAxis, Aabb.axis_interval, bbP, rayZ, Vec3.comp, FP.invQ,
    fp_subQ_fin, fp_mul_fin_pinf, fp_mul_fin_fin, fp_pinf_lt, fp_lt_fin_pinf,
    fp_lt_fin_fin_eq, FP.maxR, FP.minR, fp_le_pinf_fin, fp_le_fin_fin_eq,
    fp_lt_nan, fp_nan_lt]
  simp [fp_le_pinf_fin, fp_le_fin_fin_eq]

theorem slabAxis_bbP_1 :
    Aabb.slabAxis bbP rayZ 1 (FP.fin (1/1000)) FP.pinf =
      some (FP.fin (1/1000), FP.pinf) := by
  norm_num [Aabb.slabAxis, Aabb.axis_interval, bbP, rayZ, Vec3.comp, FP.invQ,
    fp_subQ_fin, fp_mul_fin_pinf, fp_mul_fin_fin, fp_pinf_lt, fp_lt_fin_pinf,
    fp_lt_fin_fin_eq, FP.maxR, FP.minR, fp_le_pinf_fin, fp_le_fin_fin_eq,
    fp_lt_nan, fp_nan_lt]
  simp [fp_le_pinf_fin, fp_le_fin_fin_eq]

theorem slabAxis_bbP_2 :
    Aabb.slabAxis bbP rayZ 2 (FP.fin (1/1000)) FP.pinf = none := by
  norm_num [Aabb.slabAxis, Aabb.axis_interval, bbP, rayZ, Vec3.comp, FP.invQ,
    fp_subQ_fin, fp_mul_fin_pinf, fp_mul_fin_fin, fp_pinf_lt, fp_lt_fin_pinf,
    fp_lt_fin_fin_eq, FP.maxR, FP.minR, fp_le_pinf_fin, fp_le_fin_fin_eq,
    fp_lt_nan, fp_nan_lt]
  simp [fp_le_pinf_fin, fp_le_fin_fin_eq]

/-- The point box of the zero-radius sphere rejects the ray through its
center. -/
theorem aabb_hit_bbP : Aabb.hit bbP rayZ iHit = none := by
  have hsl : Aabb.hitSlab bbP rayZ iHit = none := by
    show Aabb.hitSlab bbP rayZ ⟨FP.fin (1/1000), FP.pinf⟩ = none
    rw [Aabb.hitSlab]
    show (Aabb.slabAxis bbP rayZ 0 (FP.fin (1/1000)) FP.pinf).bind _ = none
    rw [slabAxis_bbP_0, Option.some_bind]
    show (Aabb.slabAxis bbP rayZ 1 (FP.fin (1/1000)) FP.pinf).bind _ = none
    rw [slabAxis_bbP_1, Option.some_bind]
    exact slabAxis_bbP_2
  rw [Aabb.hit, hsl]
  rfl

/-- The candidate of the zero-radius sphere for the ray through its center:
the closer root `t = 5` (discriminant `0`). -/
theorem sphP_cand : Sphere.cand sqF sphP rayZ (FP.fin (1/1000)) = some 5 := by
  norm_num [Sphere.cand, Sphere.disc, Sphere.qa, Sphere.qhb, Sphere.qc, Sphere.root1,
    Sphere.root2, sphP, Sphere.new, rayZ, Vec3.sub, Vec3.dot, Vec3.length_squared,
    FP.divQ, fp_lt_fin_fin_eq, fp_toQ_fin, sqF]

/-- C1 counterexample: the BVH built from the one-element list holding the
zero-radius sphere `sphP` builds successfully, yet reports no hit for the ray
through the sphere's center, while the brute-force search of
`HittableList::hit` reports the hit at `t = 5`: the sphere's degenerate point
bounding box is rejected by the slab test (`t_max <= t_min` collapses on the
`z` axis), so the claimed BVH/brute-force `t`-equivalence fails. -/
theorem bvh_misses_zero_radius_sphere :
    Bvh.new [Object.sphere sphP] = Except.ok bP ∧
    Bvh.hit sqF uvZ bP rayZ iHit = none ∧
    (HittableList.hit sqF uvZ ⟨[Object.sphere sphP]⟩ rayZ iHit).map
      (fun h : HitRecord => h.t) = some (FP.fin 5) := by
  refine ⟨?_, ?_, ?_⟩
  · norm_num [Bvh.new, Bvh.build, computeBounds, boundsStep, Object.bounding_box,
      Sphere.bounding_box, Aabb.new, Aabb.axis_interval, largestAxis, objLe, mkBranch,
      BvhNode.bounding_box, FP.minR, FP.maxR, FP.cmpF, FP.sub, FP.lt, FP.le,
      Interval.new, sphP, Sphere.new, bP, bbP, except_ok_bind, except_error_bind]
    rfl
  · show BvhNode.hit sqF uvZ (BvhNode.leaf (Object.sphere sphP) bbP) rayZ iHit = none
    rw [BvhNode.hit, aabb_hit_bbP]
    rfl
  · have hsd : ∀ o ∈ [Object.sphere sphP], ∀ s, o = Object.sphere s →
        0 ≤ s.disc rayZ → 0 ≤ sqF (s.disc rayZ) := by
      intro o _ s _ _
      unfold sqF
      split <;> norm_num
    have hbr := list_hit_t sqF uvZ [Object.sphere sphP] rayZ (FP.fin (1/1000)) FP.pinf hsd
    have hiH : iHit = (⟨FP.fin (1/1000), FP.pinf⟩ : Interval) := rfl
    rw [hiH, hbr]
    have hcm : candMin sqF [Object.sphere sphP] rayZ (FP.fin (1/1000)) = some 5 := by
      rw [candMin_cons]
      show omin (Sphere.cand sqF sphP rayZ (FP.fin (1/1000))) _ = some 5
      rw [sphP_cand]
      rfl
    rw [hcm]
    simp [thresh, fp_lt_fin_pinf]

/-- Witness for C1: for the two separated unit spheres `sphB`, `sphA` the
BVH builds successfully into the concrete tree `bW`, every hypothesis of the
equivalence holds (`sqF` is exact on both discriminants, which equal `1`),
and the BVH and the brute-force search return the same `t`. -/
theorem bvh_hit_equals_brute_force_witness :
    Bvh.new [Object.sphere sphB, Object.sphere sphA] = Except.ok bW ∧
    sphereOk sqF rayZ (Object.sphere sphB) ∧
    sphereOk sqF rayZ (Object.sphere sphA) ∧
    (Bvh.hit sqF uvZ bW rayZ iHit).map (fun h : HitRecord => h.t) =
      (HittableList.hit sqF uvZ ⟨[Object.sphere sphB, Object.sphere sphA]⟩ rayZ
        iHit).map (fun h : HitRecord => h.t) := by
  have hnew : Bvh.new [Object.sphere sphB, Object.sphere sphA] = Except.ok bW := by
    norm_num [Bvh.new, Bvh.build, computeBounds, boundsStep, Object.bounding_box,
      Sphere.bounding_box, Aabb.new, Aabb.axis_interval, Aabb.surrounding,
      largestAxis, objLe, mkBranch, BvhNode.bounding_box,
      fp_minR_pinf_fin, fp_maxR_ninf_fin, fp_minR_fin_fin, fp_maxR_fin_fin,
      fp_cmpF_fin_fin, fp_sub_fin_fin, compare_gt_iff_gt, Option.getD_some,
      max_def, Interval.new, sphA, sphB, Sphere.new, bW, bbA, bbB, bbU,
      except_ok_bind, except_error_bind]
    rfl
  have hokB : sphereOk sqF rayZ (Object.sphere sphB) := by
    refine ⟨sphB, rfl, by norm_num [sphB, Sphere.new], by norm_num [sphB, Sphere.new], ?_⟩
    intro _
    constructor <;>
      norm_num [Sphere.disc, Sphere.qhb, Sphere.qa, Sphere.qc, sphB, Sphere.new,
        rayZ, Vec3.sub, Vec3.dot, Vec3.length_squared, sqF]
  have hokA : sphereOk sqF rayZ (Object.sphere sphA) := by
    refine ⟨sphA, rfl, by norm_num [sphA, Sphere.new], by norm_num [sphA, Sphere.new], ?_⟩
    intro _
    constructor <;>
      norm_num [Sphere.disc, Sphere.qhb, Sphere.qa, Sphere.qc, sphA, Sphere.new,
        rayZ, Vec3.sub, Vec3.dot, Vec3.length_squared, sqF]
  have hok : ∀ o ∈ [Object.sphere sphB, Object.sphere sphA], sphereOk sqF rayZ o := by
    intro o ho
    simp only [List.mem_cons, List.not_mem_nil, or_false] at ho
    rcases ho with h | h <;> subst h
    · exact hokB
    · exact hokA
  exact ⟨hnew, hokB, hokA, bvh_hit_equals_brute_force sqF uvZ
    [Object.sphere sphB, Object.sphere sphA] rayZ bW iHit hnew hok⟩

end RT
